import Mathlib

/-!
Verification of the fai-protocol content-addressed storage, metadata index,
repository service and sync engine against their natural-language design.

Modelling conventions (shallow embedding of the Rust sources):

* Byte strings (`Vec<u8>`, `&[u8]`) are `List Nat`; hex digest strings are
  also `List Nat` (their character codes).  The on-disk object directory
  `objects/<d[0..2]>/<d[2..]>` keys a blob by the pair of the first two
  characters and the rest of the digest; since the split position is fixed,
  this is equivalent to keying by the whole digest string, which is how the
  model stores objects (an association list in insertion order, newest
  first, mirroring "write only if the path does not already exist").
* The BLAKE3 hash is an abstract parameter `H : Bytes → Digest`; theorems
  assume what the code relies on: collision resistance (idealised as
  injectivity) and that digests are at least 2 characters long (BLAKE3 hex
  digests have 64).  Witnesses instantiate `H` with a concrete injective
  encoding `cH`.
* `serde_json` (de)serialisation of `FileManifest` is modelled by an
  executable self-delimiting codec `encodeManifest` / `decodeManifest`
  with exactly the contract the source relies on: the encoding begins with
  the byte `{` (123), decoding inverts encoding, and decoding the lone
  byte `{` fails (as `serde_json::from_str` does on the string "{").
* `anyhow::Result` is `Except FaiErr`; the distinct error constructors
  record which source-level failure produced them.
* SQLite tables are lists of row structures in rowid (insertion) order.
  `ORDER BY` clauses are modelled by a stable insertion sort, matching the
  fact that the SQL requests no tiebreak beyond the listed columns.
  `PRAGMA foreign_keys = ON` is executed by `DatabaseManager::init_schema`,
  so inserts into `commit_parents` enforce the `parent_hash → commits`
  foreign key.  `StorageManager`'s `metadata.db` connection never enables
  the pragma, so `save_remote_commit` inserts are unconstrained.
-/

/-- Byte strings of the Rust code (`Vec<u8>`). -/
abbrev Bytes := List Nat

/-- Hex digest strings of the Rust code, as lists of character codes. -/
abbrev Digest := List Nat

/-- Error kinds produced by the modelled operations, one per distinct
source-level failure site. -/
inductive FaiErr where
  /-- storage/mod.rs "Invalid hash length" (digest shorter than 2). -/
  | invalidHashLength
  /-- storage/mod.rs "Object not found" / "Chunk not found". -/
  | notFound
  /-- serde_json manifest parse failure propagated by `?`. -/
  | manifestParse
  /-- lib.rs "Nothing to commit". -/
  | emptyCommit
  /-- database/mod.rs "Commit hash cannot be empty". -/
  | emptyHash
  /-- database/mod.rs "Commit message cannot be empty". -/
  | emptyMessage
  /-- SQLite FOREIGN KEY constraint failure surfaced by `create_commit`. -/
  | fkViolation
  /-- SQLite PRIMARY KEY conflict surfaced by `create_commit`. -/
  | pkViolation
  /-- a Timeout error kind; the spec names it, `request_chunk` never
  produces it. -/
  | timeout
deriving DecidableEq, Repr

deriving instance DecidableEq for Except

/-- JSON/ASCII whitespace bytes (space, tab, LF, CR); models the
whitespace skipped by `trim_start` on the textual prefixes the model
deals with. -/
def isJsonWs (b : Nat) : Bool := b = 32 || b = 9 || b = 10 || b = 13

/-- First non-whitespace byte is `{` (code 123): the manifest
disambiguator used by `StorageManager::retrieve`. -/
def startsWithBrace (data : Bytes) : Bool :=
  (data.dropWhile isJsonWs).head? = some 123

/-- Rust `str::trim` restricted to the ASCII whitespace the modelled
values can contain. -/
def trimList (l : List Nat) : List Nat :=
  ((l.dropWhile isJsonWs).reverse.dropWhile isJsonWs).reverse

/-- Does `pat` occur as an initial segment of `l`?  Models Rust
`str::starts_with`. -/
def startsWithSeq : List Nat → List Nat → Bool
  | [], _ => true
  | _ :: _, [] => false
  | p :: ps, x :: xs => decide (p = x) && startsWithSeq ps xs

/-! ### Self-delimiting codec standing in for `serde_json` on `FileManifest` -/

/-- Unary, self-delimiting encoding of a natural number. -/
def encNat (n : Nat) : List Nat := List.replicate n 0 ++ [1]

/-- Decode `encNat`; returns the value and the rest of the input. -/
def decNat : List Nat → Option (Nat × List Nat)
  | [] => none
  | 1 :: r => some (0, r)
  | 0 :: r =>
    match decNat r with
    | some (n, r2) => some (n + 1, r2)
    | none => none
  | _ => none

/-- Self-delimiting encoding of a list of naturals (a byte/char string). -/
def encSeq (l : List Nat) : List Nat := encNat l.length ++ (l.map encNat).flatten

/-- Decode a counted run of `encNat` values. -/
def decNats : Nat → List Nat → Option (List Nat × List Nat)
  | 0, r => some ([], r)
  | k + 1, r =>
    match decNat r with
    | some (n, r2) =>
      match decNats k r2 with
      | some (l, r3) => some (n :: l, r3)
      | none => none
    | none => none

/-- Decode `encSeq`. -/
def decSeq (r : List Nat) : Option (List Nat × List Nat) :=
  match decNat r with
  | some (k, r2) => decNats k r2
  | none => none

/-- Self-delimiting encoding of a list of digest strings. -/
def encSeqList (l : List Digest) : List Nat :=
  encNat l.length ++ (l.map encSeq).flatten

/-- Decode a counted run of `encSeq` values. -/
def decSeqs : Nat → List Nat → Option (List Digest × List Nat)
  | 0, r => some ([], r)
  | k + 1, r =>
    match decSeq r with
    | some (d, r2) =>
      match decSeqs k r2 with
      | some (l, r3) => some (d :: l, r3)
      | none => none
    | none => none

/-- Decode `encSeqList`. -/
def decSeqList (r : List Nat) : Option (List Digest × List Nat) :=
  match decNat r with
  | some (k, r2) => decSeqs k r2
  | none => none

/-- Self-delimiting encoding of an optional byte string (the manifest's
`filename` field). -/
def encOptSeq : Option Bytes → List Nat
  | none => encNat 0
  | some b => encNat 1 ++ encSeq b

/-- Decode `encOptSeq`. -/
def decOptSeq (r : List Nat) : Option (Option Bytes × List Nat) :=
  match decNat r with
  | some (0, r2) => some (none, r2)
  | some (1, r2) =>
    match decSeq r2 with
    | some (b, r3) => some (some b, r3)
    | none => none
  | some _ => none
  | none => none

/-- Manifest record for multi-chunk files (storage/mod.rs `FileManifest`):
total reassembled size, ordered chunk digests, optional original
filename. -/
structure FileManifest where
  total_size : Nat
  chunks : List Digest
  filename : Option Bytes
deriving DecidableEq, Repr

/-- Serialisation of a manifest (stands in for
`serde_json::to_string_pretty`): begins with the byte `{` and is
invertible. -/
def encodeManifest (m : FileManifest) : Bytes :=
  123 :: (encNat m.total_size ++ encSeqList m.chunks ++ encOptSeq m.filename)

/-- Deserialisation of a manifest (stands in for `serde_json::from_str`):
fails on anything that is not exactly an encoding, in particular on the
lone byte `{`. -/
def decodeManifest (bs : Bytes) : Option FileManifest :=
  match bs with
  | 123 :: r =>
    match decNat r with
    | some (ts, r2) =>
      match decSeqList r2 with
      | some (cs, r3) =>
        match decOptSeq r3 with
        | some (fn, []) => some ⟨ts, cs, fn⟩
        | some (_, _ :: _) => none
        | none => none
      | none => none
    | none => none
  | _ => none

/-! ### Object store (storage/mod.rs `StorageManager`) -/

/-- Chunk size for large files, 1 MiB (storage/mod.rs `CHUNK_SIZE`). -/
def CHUNK_SIZE : Nat := 1024 * 1024

/-- The on-disk `objects/` directory: an association list from the full
digest string to the blob bytes, newest entry first (a blob is written
only if its sharded path is absent). -/
structure Store where
  objects : List (Digest × Bytes)
deriving DecidableEq, Repr

/-- A freshly initialised, empty object store. -/
def emptyStore : Store := ⟨[]⟩

/-- Filesystem read at the sharded path of a digest. -/
def lookupObj : List (Digest × Bytes) → Digest → Option Bytes
  | [], _ => none
  | (k, v) :: rest, d => if k = d then some v else lookupObj rest d

/-- storage/mod.rs `store_single_object`: hash the data, reject digests
shorter than 2 characters, write only if the path is absent (idempotent
write), return the digest. -/
def store_single_object (H : Bytes → Digest) (st : Store) (data : Bytes) :
    Except FaiErr (Digest × Store) :=
  let h := H data
  if h.length < 2 then .error .invalidHashLength
  else if (lookupObj st.objects h).isSome then .ok (h, st)
  else .ok (h, ⟨(h, data) :: st.objects⟩)

/-- The store state after `store_single_object`: unchanged when the
digest is already on disk, otherwise extended with the new blob. -/
def ssoState (H : Bytes → Digest) (st : Store) (data : Bytes) : Store :=
  if (lookupObj st.objects (H data)).isSome then st
  else ⟨(H data, data) :: st.objects⟩

/-- Rust `slice::chunks n` for `n ≥ 1`: contiguous chunks of length `n`,
the last possibly shorter; an empty slice yields no chunks. -/
def chunkList (n : Nat) : List α → List (List α)
  | [] => []
  | a :: l => (a :: l.take (n - 1)) :: chunkList n (l.drop (n - 1))
termination_by l => l.length
decreasing_by simp [List.length_drop]; omega

/-- storage/mod.rs `chunk_file`: split into `CHUNK_SIZE` chunks and hash
each one. -/
def chunk_file (H : Bytes → Digest) (data : Bytes) : List (Digest × Bytes) :=
  (chunkList CHUNK_SIZE data).map (fun c => (H c, c))

/-- storage/mod.rs `create_manifest`: total size is the sum of the chunk
lengths, chunk digests in order, serialise, store as a single object and
return the manifest digest. -/
def create_manifest (H : Bytes → Digest) (st : Store)
    (chunks : List (Digest × Bytes)) (filename : Option Bytes) :
    Except FaiErr (Digest × Store) :=
  let total_size := (chunks.map (fun p => p.2.length)).sum
  let chunk_hashes := chunks.map Prod.fst
  store_single_object H st (encodeManifest ⟨total_size, chunk_hashes, filename⟩)

/-- The chunk-storing loop inside `StorageManager::store`. -/
def storeChunks (H : Bytes → Digest) (st : Store) :
    List (Digest × Bytes) → Except FaiErr Store
  | [] => .ok st
  | (_, cdata) :: rest =>
    match store_single_object H st cdata with
    | .error e => .error e
    | .ok (_, st1) => storeChunks H st1 rest

/-- storage/mod.rs `StorageManager::store`: data longer than `CHUNK_SIZE`
is chunked, every chunk is stored, then a manifest over the chunks is
stored and its digest returned; otherwise the data is stored as a single
object. -/
def store (H : Bytes → Digest) (st : Store) (data : Bytes) :
    Except FaiErr (Digest × Store) :=
  if data.length > CHUNK_SIZE then
    match storeChunks H st (chunk_file H data) with
    | .error e => .error e
    | .ok st1 => create_manifest H st1 (chunk_file H data) none
  else store_single_object H st data

/-- storage/mod.rs `retrieve_single_chunk`: raw read, no manifest
interpretation. -/
def retrieve_single_chunk (st : Store) (h : Digest) : Except FaiErr Bytes :=
  if h.length < 2 then .error .invalidHashLength
  else
    match lookupObj st.objects h with
    | some data => .ok data
    | none => .error .notFound

/-- The chunk loop of `reconstruct_from_manifest`: retrieve every chunk in
order and concatenate. -/
def retrieveChunks (st : Store) : List Digest → Except FaiErr Bytes
  | [] => .ok []
  | h :: rest =>
    match retrieve_single_chunk st h with
    | .error e => .error e
    | .ok c =>
      match retrieveChunks st rest with
      | .error e => .error e
      | .ok r => .ok (c ++ r)

/-- storage/mod.rs `reconstruct_from_manifest`: parse the manifest (parse
failure propagates as an error), then concatenate its chunks; the
recorded `total_size` is not enforced (a mismatch only logs a warning). -/
def reconstruct_from_manifest (st : Store) (mbytes : Bytes) : Except FaiErr Bytes :=
  match decodeManifest mbytes with
  | none => .error .manifestParse
  | some m => retrieveChunks st m.chunks

/-- storage/mod.rs `StorageManager::retrieve`: reject digests shorter than
2, read the blob, and if its first non-whitespace byte is `{` reinterpret
it as a manifest and reconstruct; otherwise return the bytes as stored. -/
def retrieve (st : Store) (h : Digest) : Except FaiErr Bytes :=
  if h.length < 2 then .error .invalidHashLength
  else
    match lookupObj st.objects h with
    | none => .error .notFound
    | some data =>
      if startsWithBrace data then reconstruct_from_manifest st data else .ok data

/-- storage/mod.rs `StorageManager::exists`: false for digests shorter
than 2, otherwise a pure filesystem-presence check. -/
def existsHash (st : Store) (h : Digest) : Bool :=
  if h.length < 2 then false else (lookupObj st.objects h).isSome

/-- Well-formedness of an object store: every entry is keyed by the hash
of its bytes (invariant I1) and no digest is stored twice (each blob has
one on-disk path). -/
def StoreWF (H : Bytes → Digest) (st : Store) : Prop :=
  (∀ p ∈ st.objects, p.1 = H p.2) ∧ (st.objects.map Prod.fst).Nodup

/-- A concrete injective stand-in hash used to instantiate theorems:
prepends two bytes so digests always have length at least 2, then applies
the invertible `encSeq` encoding. -/
def cH (b : Bytes) : Digest := 7 :: 7 :: encSeq b

/-! ### Metadata index (database/mod.rs `DatabaseManager`) -/

/-- Row of the `commits` table. -/
structure CommitRow where
  hash : List Nat
  message : List Nat
  timestamp : Int
  is_merge : Bool
deriving DecidableEq, Repr

/-- Row of the `commit_parents` table. -/
structure ParentRow where
  commit_hash : List Nat
  parent_hash : List Nat
  parent_order : Nat
deriving DecidableEq, Repr

/-- Row of the `commit_files` table. -/
structure FileRow where
  commit_hash : List Nat
  file_path : List Nat
  file_hash : List Nat
  file_size : Nat
deriving DecidableEq, Repr

/-- Row of the `staging` table: `(file_path, file_hash, file_size)`. -/
abbrev StagedRow := List Nat × List Nat × Nat

/-- The SQLite database `db.sqlite`, tables as lists of rows in rowid
(insertion) order. -/
structure DBState where
  commits : List CommitRow
  commit_parents : List ParentRow
  commit_files : List FileRow
  staging : List StagedRow
deriving DecidableEq, Repr

/-- An empty, freshly initialised database. -/
def emptyDB : DBState := ⟨[], [], [], []⟩

/-- Does a commit row with this hash exist (`SELECT COUNT(*) FROM commits
WHERE hash = ?`)? -/
def hasCommit (db : DBState) (h : List Nat) : Bool :=
  db.commits.any (fun r => decide (r.hash = h))

/-- database/mod.rs `add_to_staging` (`INSERT OR REPLACE`): the previous
row for the path, if any, is deleted and the new row appended. -/
def add_to_staging (db : DBState) (path h : List Nat) (size : Nat) : DBState :=
  { db with staging :=
      (db.staging.filter (fun r => decide (r.1 ≠ path))) ++ [(path, h, size)] }

/-- Lexicographic (memcmp-style) strict order on byte strings, as SQLite
orders TEXT values. -/
def listLexLt : List Nat → List Nat → Bool
  | [], [] => false
  | [], _ :: _ => true
  | _ :: _, [] => false
  | a :: as_, b :: bs => if a < b then true else if b < a then false else listLexLt as_ bs

/-- database/mod.rs `get_staged_files` (`ORDER BY file_path`): a stable
sort of the staging table by path. -/
def get_staged_files (db : DBState) : List StagedRow :=
  db.staging.insertionSort (fun a b => listLexLt a.1 b.1 ∨ a.1 = b.1)

/-- database/mod.rs `clear_staging` (`DELETE FROM staging`). -/
def clear_staging (db : DBState) : DBState := { db with staging := [] }

/-- The parent-insertion loop of `create_commit`.  `PRAGMA foreign_keys =
ON` is active on this connection, so an insert whose `parent_hash` is not
an existing commit fails; a `(commit_hash, parent_order)` primary-key
conflict also fails.  A failure aborts the loop and returns the rows
inserted so far (there is no enclosing transaction). -/
def insertParents (db : DBState) (h : List Nat) :
    List (List Nat) → Nat → Except FaiErr Unit × DBState
  | [], _ => (.ok (), db)
  | p :: rest, i =>
    if db.commit_parents.any (fun r => decide (r.commit_hash = h) && decide (r.parent_order = i)) then
      (.error .pkViolation, db)
    else if hasCommit db p then
      insertParents
        { db with commit_parents := db.commit_parents ++ [⟨h, p, i⟩] } h rest (i + 1)
    else
      (.error .fkViolation, db)

/-- The file-insertion loop of `create_commit`: a failed insert (for
example a `(commit_hash, file_path)` primary-key conflict) is logged and
skipped, and the loop continues with the other files. -/
def insertFiles (db : DBState) (h : List Nat) : List StagedRow → DBState
  | [] => db
  | (p, fh, sz) :: rest =>
    if db.commit_files.any (fun r => decide (r.commit_hash = h) && decide (r.file_path = p)) then
      insertFiles db h rest
    else
      insertFiles
        { db with commit_files := db.commit_files ++ [⟨h, p, fh, sz⟩] } h rest

/-- The parent rows `insertParents` appends on success: one row per
parent, with consecutive `parent_order` values starting at `i`. -/
def parentRows (h : List Nat) : List (List Nat) → Nat → List ParentRow
  | [], _ => []
  | p :: rest, i => ⟨h, p, i⟩ :: parentRows h rest (i + 1)

/-- database/mod.rs `create_commit`: validate hash and message, return
`Ok` without touching anything if the hash already exists (idempotent
replay), then insert the commit row, the parent rows in order and the
file rows — as three separate statements with no enclosing transaction.
`now` is the row timestamp taken from the wall clock inside the
function. -/
def create_commit (db : DBState) (hash message : List Nat)
    (parents : List (List Nat)) (files : List StagedRow) (is_merge : Bool)
    (now : Int) : Except FaiErr Unit × DBState :=
  if hash = [] then (.error .emptyHash, db)
  else if trimList message = [] then (.error .emptyMessage, db)
  else if hasCommit db hash then (.ok (), db)
  else
    let db1 := { db with commits := db.commits ++ [⟨hash, message, now, is_merge⟩] }
    match insertParents db1 hash parents 0 with
    | (.error e, db2) => (.error e, db2)
    | (.ok _, db2) => (.ok (), insertFiles db2 hash files)

/-- Timestamp-descending comparison used by `ORDER BY timestamp DESC`. -/
def tsDesc (a b : CommitRow) : Prop := b.timestamp ≤ a.timestamp

instance : DecidableRel tsDesc := fun a b => inferInstanceAs (Decidable (b.timestamp ≤ a.timestamp))

instance : IsTotal CommitRow tsDesc := ⟨fun a b => (le_total b.timestamp a.timestamp)⟩

instance : IsTrans CommitRow tsDesc := ⟨fun _ _ _ hab hbc => le_trans hbc hab⟩

/-- database/mod.rs `get_commit_history`: `SELECT … FROM commits ORDER BY
timestamp DESC [LIMIT n]`.  The SQL names no tiebreak column, so rows
with equal timestamps keep their table order (stable sort by timestamp
descending). -/
def get_commit_history (rows : List CommitRow) (limit : Option Nat) : List CommitRow :=
  let sorted := rows.insertionSort tsDesc
  match limit with
  | some n => sorted.take n
  | none => sorted

/-- The ordering the specification claims for `list_commits`: timestamp
descending, then hash descending.  Stated from the spec's words, to be
compared with what `get_commit_history` produces. -/
def specHistoryOrderedB : List CommitRow → Bool
  | [] => true
  | a :: rest =>
    rest.all (fun b =>
      decide (b.timestamp < a.timestamp) ||
      (decide (a.timestamp = b.timestamp) && !listLexLt a.hash b.hash)) &&
    specHistoryOrderedB rest

/-- The parent list of a commit as read back by `get_commit`
(`SELECT parent_hash FROM commit_parents WHERE commit_hash = ? ORDER BY
parent_order`). -/
def parentsOf (db : DBState) (h : List Nat) : List (List Nat) :=
  ((db.commit_parents.filter (fun r => decide (r.commit_hash = h))).insertionSort
    (fun a b => a.parent_order ≤ b.parent_order)).map ParentRow.parent_hash

/-- Foreign-key closure of the `commit_parents` table towards `commits`:
every parent row belongs to an existing commit.  SQLite enforces this on
every reachable database, since the foreign keys are declared and the
pragma is on. -/
def ParentRowsClosed (db : DBState) : Prop :=
  ∀ r ∈ db.commit_parents, hasCommit db r.commit_hash = true

/-! ### Repository service (lib.rs `FaiProtocol`) -/

/-- Repository state seen by `FaiProtocol`: the database plus the `HEAD`
file (`none` when the file does not exist). -/
structure FaiState where
  db : DBState
  headFile : Option (List Nat)
deriving DecidableEq, Repr

/-- The character codes of `ref:`. -/
def refMarker : List Nat := [114, 101, 102, 58]

/-- lib.rs `get_head`: missing file or a `ref:`-style symbolic reference
resolve to no parent; otherwise the trimmed file content is the HEAD
digest. -/
def get_head (s : FaiState) : Option (List Nat) :=
  match s.headFile with
  | none => none
  | some content =>
    if startsWithSeq refMarker content then none else some (trimList content)

/-- lib.rs `FaiProtocol::commit`: read the staged files (failing when
empty), resolve HEAD to the parent list, derive the commit digest with
the hash `mk` over the payload `(now, message, staged)`, write the commit
through `create_commit`, then overwrite the HEAD file and clear the
staging area.  An error from `create_commit` propagates with HEAD and
staging untouched (though `create_commit` may already have mutated the
commit tables). -/
def commitOp (mk : Int → List Nat → List StagedRow → List Nat) (now : Int)
    (message : List Nat) (s : FaiState) : Except FaiErr (List Nat) × FaiState :=
  let staged := get_staged_files s.db
  if staged = [] then (.error .emptyCommit, s)
  else
    let parent := get_head s
    let commit_hash := mk now message staged
    let parents := match parent with | some p => [p] | none => []
    match create_commit s.db commit_hash message parents staged false now with
    | (.error e, db2) => (.error e, { s with db := db2 })
    | (.ok _, db2) =>
      (.ok commit_hash, { db := clear_staging db2, headFile := some commit_hash })

/-! ### Sync engine (network/mod.rs `NetworkManager`) -/

/-- Chunk response message `{ hash, data: bytes? }`. -/
structure ChunkResponseM where
  hash : Digest
  data : Option Bytes
deriving DecidableEq, Repr

/-- The chunk-request branch of `handle_swarm_event`: the responder calls
`StorageManager::retrieve` on the requested digest, answers with the data
on success and with `data = none` on any retrieval error, and always
sends a response on the open substream (a send failure is only logged).
The responder's store is not modified, so later requests are answered the
same way. -/
def respondChunk (st : Store) (h : Digest) : ChunkResponseM :=
  { hash := h, data := (retrieve st h).toOption }

/-- Events the `request_chunk` wait loop can observe, relative to the
request id it is waiting for. -/
inductive RCEvent where
  /-- a chunk response whose request id matches, carrying `data`. -/
  | respMatch (data : Option Bytes)
  /-- a chunk response for some other request id (dropped silently). -/
  | respOther
  /-- an outbound failure for the matching request id. -/
  | failMatch
  /-- an outbound failure for some other request id. -/
  | failOther
  /-- any other swarm event, delegated to `handle_swarm_event`, which
  returns `Ok` on every branch. -/
  | other
deriving DecidableEq, Repr

/-- The response-waiting loop of network/mod.rs `request_chunk`, over the
sequence of swarm events observed before the 10-second deadline: a
matching response returns its data, a matching outbound failure returns
`Ok(None)`, other events are processed and the loop continues, and an
exhausted event sequence (the deadline passing with no matching event)
returns `Ok(None)` — not an error. -/
def request_chunk_wait : List RCEvent → Except FaiErr (Option Bytes)
  | [] => .ok none
  | .respMatch d :: _ => .ok d
  | .failMatch :: _ => .ok none
  | .respOther :: rest => request_chunk_wait rest
  | .failOther :: rest => request_chunk_wait rest
  | .other :: rest => request_chunk_wait rest

/-- Commit payload of the `/fai/commit/1.0.0` channel
(storage/mod.rs `CommitInfo`). -/
structure CommitInfoM where
  hash : List Nat
  message : List Nat
  timestamp : Int
  file_hashes : List (List Nat)
deriving DecidableEq, Repr

/-- State of a cloned repository: its object store plus the `commits` and
`commit_files` tables of the storage manager's `metadata.db` (the index
`save_remote_commit` writes to). -/
structure CloneState where
  store : Store
  metaCommits : List (List Nat × List Nat × Int)
  metaCommitFiles : List (List Nat × List Nat)
deriving DecidableEq, Repr

/-- A freshly initialised clone target. -/
def emptyCloneState : CloneState := ⟨emptyStore, [], []⟩

/-- The commit-file loop of `save_remote_commit` (`INSERT OR IGNORE INTO
commit_files`). -/
def addFileRows (cs : CloneState) (h : List Nat) : List (List Nat) → CloneState
  | [] => cs
  | fh :: rest =>
    if cs.metaCommitFiles.any (fun r => decide (r.1 = h) && decide (r.2 = fh)) then
      addFileRows cs h rest
    else
      addFileRows { cs with metaCommitFiles := cs.metaCommitFiles ++ [(h, fh)] } h rest

/-- storage/mod.rs `save_remote_commit`: inside one transaction, `INSERT
OR IGNORE` the commit row, then `INSERT OR IGNORE` one `commit_files` row
per file hash.  No statement can fail (conflicts are ignored and this
connection has foreign keys off), so the transaction always commits. -/
def save_remote_commit (cs : CloneState) (c : CommitInfoM) : CloneState :=
  let cs1 :=
    if cs.metaCommits.any (fun r => decide (r.1 = c.hash)) then cs
    else { cs with metaCommits := cs.metaCommits ++ [(c.hash, c.message, c.timestamp)] }
  addFileRows cs1 c.hash c.file_hashes

/-- The `HashSet` of all file hashes across the received commits, as a
first-occurrence deduplication (the set's iteration order is irrelevant
to the properties proved). -/
def dedupKeepFirst (l : List (List Nat)) : List (List Nat) :=
  l.foldl (fun acc h => if h ∈ acc then acc else acc ++ [h]) []

/-- The per-file download loop of the clone handler (main.rs): request
each hash from the peer; on data, `store` it locally (an error there
propagates through `?`); on a nil response, print a message and continue
with the remaining files. -/
def downloadFiles (H : Bytes → Digest) (peerStore : Store) (cs : CloneState) :
    List Digest → Except FaiErr CloneState
  | [] => .ok cs
  | h :: rest =>
    match (respondChunk peerStore h).data with
    | some data =>
      match store H cs.store data with
      | .error e => .error e
      | .ok (_, st2) => downloadFiles H peerStore { cs with store := st2 } rest
    | none => downloadFiles H peerStore cs rest

/-- The clone orchestration of main.rs `Commands::Clone`, after peer
discovery succeeded: fetch the peer's full commit list (its answer to a
commit request with no hash); return success immediately if it is empty;
download every distinct file hash best-effort; then `save_remote_commit`
every received commit and report success. -/
def cloneFlow (H : Bytes → Digest) (peerStore : Store)
    (peerCommits : List CommitInfoM) : Except FaiErr CloneState :=
  if peerCommits = [] then .ok emptyCloneState
  else
    let fileHashes := dedupKeepFirst (peerCommits.map CommitInfoM.file_hashes).flatten
    match downloadFiles H peerStore emptyCloneState fileHashes with
    | .error e => .error e
    | .ok cs => .ok (peerCommits.foldl save_remote_commit cs)

/-- Number of on-disk copies stored under a digest (files at the sharded
path of `k`). -/
def countKey (objs : List (Digest × Bytes)) (k : Digest) : Nat :=
  (objs.filter (fun p => decide (p.1 = k))).length

/-- Is a commit row with this hash present in the clone's metadata index
(`SELECT` over the `commits` table of `metadata.db`)? -/
def commitIn (cs : CloneState) (h : List Nat) : Bool :=
  cs.metaCommits.any (fun r => decide (r.1 = h))

/-- Is a `(commit_hash, file_hash)` association present in the clone's
metadata index? -/
def fileRowIn (cs : CloneState) (h fh : List Nat) : Bool :=
  cs.metaCommitFiles.any (fun r => decide (r.1 = h) && decide (r.2 = fh))

/-! ### Concrete demonstration inputs used by counterexamples and witnesses -/

/-- The serialised empty manifest: a small byte string whose first byte is
the brace. -/
def demoManifestBytes : Bytes := encodeManifest ⟨0, [], none⟩

/-- The object store produced by `store cH emptyStore demoManifestBytes`:
the manifest bytes stored as an ordinary small blob. -/
def demoManifestStore : Store := ⟨[(cH demoManifestBytes, demoManifestBytes)]⟩

/-- A commit-digest function for the double-commit demonstration:
deterministic in the payload, so equal payloads give equal digests
(exactly the collision BLAKE3 produces on equal payload strings). -/
def demoMk : Int → List Nat → List StagedRow → List Nat := fun _ msg _ => 55 :: msg

/-- Repository state with one staged file (path `a`, digest `h`, size 1)
and no HEAD file. -/
def demoRepo0 : FaiState := ⟨⟨[], [], [], [([97], [104], 1)]⟩, none⟩

/-- Result of the first `commit` at millisecond 5 with message `m`. -/
def demoCommit1 : Except FaiErr (List Nat) × FaiState := commitOp demoMk 5 [109] demoRepo0

/-- The same file re-staged after the first commit. -/
def demoRepo1 : FaiState :=
  { demoCommit1.2 with db := add_to_staging demoCommit1.2.db [97] [104] 1 }

/-- Result of the second `commit`: same millisecond, same message, same
staged files, so the commit payload — and hence the digest — collides
with the first commit. -/
def demoCommit2 : Except FaiErr (List Nat) × FaiState := commitOp demoMk 5 [109] demoRepo1

/-- Two commit rows sharing timestamp 5, inserted with hash `a` before
hash `b`. -/
def demoHistoryRows : List CommitRow := [⟨[97], [109], 5, false⟩, ⟨[98], [109], 5, false⟩]

/-- A peer whose single commit (hash `c`) references the file digest `hh`
while the peer's object store is empty. -/
def demoPeerCommits : List CommitInfoM := [⟨[99], [109], 0, [[104, 104]]⟩]

/-! ## Codec lemmas -/

theorem decNat_encNat (n : Nat) (r : List Nat) : decNat (encNat n ++ r) = some (n, r) := by
  induction n with
  | zero => rfl
  | succ k ih =>
    have h : encNat (k + 1) ++ r = 0 :: (encNat k ++ r) := by
      simp [encNat, List.replicate_succ]
    rw [h]
    simp [decNat, ih]

theorem decNats_enc (l : List Nat) (r : List Nat) :
    decNats l.length ((l.map encNat).flatten ++ r) = some (l, r) := by
  induction l generalizing r with
  | nil => rfl
  | cons a t ih =>
    simp only [List.map_cons, List.flatten_cons, List.length_cons, List.append_assoc]
    simp [decNats, decNat_encNat, ih]

theorem decSeq_encSeq (l : List Nat) (r : List Nat) :
    decSeq (encSeq l ++ r) = some (l, r) := by
  simp only [encSeq, List.append_assoc, decSeq, decNat_encNat, decNats_enc]

theorem decSeqs_enc (L : List Digest) (r : List Nat) :
    decSeqs L.length ((L.map encSeq).flatten ++ r) = some (L, r) := by
  induction L generalizing r with
  | nil => rfl
  | cons a t ih =>
    simp only [List.map_cons, List.flatten_cons, List.length_cons, List.append_assoc]
    simp [decSeqs, decSeq_encSeq, ih]

theorem decSeqList_enc (L : List Digest) (r : List Nat) :
    decSeqList (encSeqList L ++ r) = some (L, r) := by
  simp only [encSeqList, List.append_assoc, decSeqList, decNat_encNat, decSeqs_enc]

theorem decOptSeq_enc (o : Option Bytes) (r : List Nat) :
    decOptSeq (encOptSeq o ++ r) = some (o, r) := by
  cases o with
  | none => simp [encOptSeq, decOptSeq, decNat_encNat]
  | some b =>
    simp only [encOptSeq, List.append_assoc, decOptSeq, decNat_encNat, decSeq_encSeq]

theorem decodeManifest_encodeManifest (m : FileManifest) :
    decodeManifest (encodeManifest m) = some m := by
  obtain ⟨ts, cs, fn⟩ := m
  have h0 : encNat ts ++ encSeqList cs ++ encOptSeq fn
      = encNat ts ++ (encSeqList cs ++ (encOptSeq fn ++ [])) := by
    simp [List.append_assoc]
  simp only [encodeManifest, decodeManifest, h0, decNat_encNat, decSeqList_enc, decOptSeq_enc]

theorem encSeq_injective : Function.Injective encSeq := by
  intro a b h
  have ha := decSeq_encSeq a []
  have hb := decSeq_encSeq b []
  rw [List.append_nil] at ha hb
  rw [h, hb] at ha
  exact (congrArg Prod.fst (Option.some.inj ha)).symm

theorem cH_injective : Function.Injective cH := by
  intro a b h
  simp only [cH, List.cons.injEq, true_and] at h
  exact encSeq_injective h

theorem cH_length (b : Bytes) : 2 ≤ (cH b).length := by
  simp [cH]

theorem startsWithBrace_encodeManifest (m : FileManifest) :
    startsWithBrace (encodeManifest m) = true := by
  simp [startsWithBrace, encodeManifest, List.dropWhile_cons, isJsonWs]

/-! ## Chunking lemmas -/

theorem chunkList_flatten (n : Nat) (l : List α) : (chunkList n l).flatten = l := by
  have key : ∀ (k : Nat) (l : List α), l.length ≤ k → (chunkList n l).flatten = l := by
    intro k
    induction k with
    | zero =>
      intro l h
      have hl : l = [] := List.length_eq_zero.mp (Nat.le_zero.mp h)
      subst hl
      simp [chunkList]
    | succ k ih =>
      intro l h
      cases l with
      | nil => simp [chunkList]
      | cons a t =>
        simp only [chunkList, List.flatten_cons]
        rw [ih (t.drop (n - 1)) (by simp only [List.length_drop]; simp at h; omega)]
        simp [List.take_append_drop]
  exact key l.length l le_rfl

theorem chunkList_eq_nil_iff (n : Nat) (l : List α) : chunkList n l = [] ↔ l = [] := by
  cases l with
  | nil => simp [chunkList]
  | cons a t => simp [chunkList]

theorem mem_chunkList (n : Nat) (hn : 1 ≤ n) (l : List α) :
    ∀ c ∈ chunkList n l, c.length ≤ n ∧ c ≠ [] := by
  have key : ∀ (k : Nat) (l : List α), l.length ≤ k →
      ∀ c ∈ chunkList n l, c.length ≤ n ∧ c ≠ [] := by
    intro k
    induction k with
    | zero =>
      intro l h
      have hl : l = [] := List.length_eq_zero.mp (Nat.le_zero.mp h)
      subst hl
      simp [chunkList]
    | succ k ih =>
      intro l h c hc
      cases l with
      | nil => simp [chunkList] at hc
      | cons a t =>
        simp only [chunkList, List.mem_cons] at hc
        rcases hc with hc | hc
        · subst hc
          constructor
          · simp only [List.length_cons]
            have := List.length_take (n - 1) t
            omega
          · simp
        · exact ih (t.drop (n - 1))
            (by simp only [List.length_drop]; simp at h; omega) c hc
  exact key l.length l le_rfl

theorem chunkList_dropLast_length (n : Nat) (hn : 1 ≤ n) (l : List α) :
    ∀ c ∈ (chunkList n l).dropLast, c.length = n := by
  have key : ∀ (k : Nat) (l : List α), l.length ≤ k →
      ∀ c ∈ (chunkList n l).dropLast, c.length = n := by
    intro k
    induction k with
    | zero =>
      intro l h
      have hl : l = [] := List.length_eq_zero.mp (Nat.le_zero.mp h)
      subst hl
      simp [chunkList]
    | succ k ih =>
      intro l h c hc
      cases l with
      | nil => simp [chunkList] at hc
      | cons a t =>
        simp only [chunkList] at hc
        by_cases hrest : chunkList n (t.drop (n - 1)) = []
        · rw [hrest] at hc
          simp at hc
        · rw [List.dropLast_cons_of_ne_nil hrest, List.mem_cons] at hc
          rcases hc with hc | hc
          · subst hc
            have hdrop : t.drop (n - 1) ≠ [] := by
              intro hd
              exact hrest (by rw [hd]; simp [chunkList])
            have hlen : n - 1 ≤ t.length := by
              by_contra hlt
              exact hdrop (List.drop_eq_nil_of_le (by omega))
            simp only [List.length_cons, List.length_take]
            omega
          · exact ih (t.drop (n - 1))
              (by simp only [List.length_drop]; simp at h; omega) c hc
  exact key l.length l le_rfl

/-! ## Object-store lemmas -/

theorem lookupObj_eq_none_iff (objs : List (Digest × Bytes)) (k : Digest) :
    lookupObj objs k = none ↔ k ∉ objs.map Prod.fst := by
  induction objs with
  | nil => simp [lookupObj]
  | cons p rest ih =>
    simp only [lookupObj, List.map_cons, List.mem_cons]
    by_cases h : p.1 = k
    · simp [h]
    · rw [if_neg h, ih]
      constructor
      · intro hnot hmem
        rcases hmem with hmem | hmem
        · exact h hmem.symm
        · exact hnot hmem
      · intro hnot hmem
        exact hnot (Or.inr hmem)

theorem lookupObj_mem (objs : List (Digest × Bytes)) (k : Digest) (v : Bytes)
    (h : lookupObj objs k = some v) : (k, v) ∈ objs := by
  induction objs with
  | nil => simp [lookupObj] at h
  | cons p rest ih =>
    simp only [lookupObj] at h
    by_cases hk : p.1 = k
    · rw [if_pos hk] at h
      have hv : p.2 = v := Option.some.inj h
      exact List.mem_cons.mpr (Or.inl (by obtain ⟨a, b⟩ := p; simp only at hk hv; rw [hk, hv]))
    · rw [if_neg hk] at h
      exact List.mem_cons.mpr (Or.inr (ih h))

theorem lookup_hash_of_wf {H : Bytes → Digest} {st : Store} {k : Digest} {v : Bytes}
    (hwf : StoreWF H st) (h : lookupObj st.objects k = some v) : k = H v :=
  hwf.1 (k, v) (lookupObj_mem _ _ _ h)

theorem store_single_object_eq (H : Bytes → Digest) (st : Store) (data : Bytes)
    (hlen : 2 ≤ (H data).length) :
    store_single_object H st data = .ok (H data, ssoState H st data) := by
  have hnl : ¬ (H data).length < 2 := Nat.not_lt.mpr hlen
  by_cases hc : (lookupObj st.objects (H data)).isSome
  · simp [store_single_object, ssoState, hnl, hc]
  · simp [store_single_object, ssoState, hnl, hc]

theorem lookupObj_ssoState_self (H : Bytes → Digest) (st : Store) (data : Bytes)
    (hwf : StoreWF H st) (hinj : Function.Injective H) :
    lookupObj (ssoState H st data).objects (H data) = some data := by
  unfold ssoState
  by_cases hc : (lookupObj st.objects (H data)).isSome
  · rw [if_pos hc]
    obtain ⟨v, hv⟩ := Option.isSome_iff_exists.mp hc
    have hkey : H data = H v := lookup_hash_of_wf hwf hv
    rw [hv]
    exact congrArg some (hinj hkey).symm
  · rw [if_neg hc]
    simp [lookupObj]

theorem lookupObj_ssoState_preserve (H : Bytes → Digest) (st : Store) (data : Bytes)
    (k : Digest) (v : Bytes) (h : lookupObj st.objects k = some v) :
    lookupObj (ssoState H st data).objects k = some v := by
  unfold ssoState
  by_cases hc : (lookupObj st.objects (H data)).isSome
  · rw [if_pos hc]; exact h
  · rw [if_neg hc]
    simp only [lookupObj]
    have hne : H data ≠ k := by
      intro he
      exact hc (by rw [he, h]; rfl)
    rw [if_neg hne]
    exact h

theorem ssoState_WF (H : Bytes → Digest) (st : Store) (data : Bytes)
    (hwf : StoreWF H st) : StoreWF H (ssoState H st data) := by
  unfold ssoState
  by_cases hc : (lookupObj st.objects (H data)).isSome
  · rw [if_pos hc]; exact hwf
  · rw [if_neg hc]
    constructor
    · intro p hp
      rcases List.mem_cons.mp hp with hp | hp
      · rw [hp]
      · exact hwf.1 p hp
    · simp only [List.map_cons]
      rw [List.nodup_cons]
      exact ⟨(lookupObj_eq_none_iff _ _).mp (Option.not_isSome_iff_eq_none.mp hc), hwf.2⟩

theorem ssoState_noop (H : Bytes → Digest) (st : Store) (data : Bytes)
    (hc : (lookupObj st.objects (H data)).isSome) : ssoState H st data = st := by
  unfold ssoState
  rw [if_pos hc]

theorem ssoState_lookup_isSome (H : Bytes → Digest) (st : Store) (data : Bytes) :
    (lookupObj (ssoState H st data).objects (H data)).isSome := by
  unfold ssoState
  by_cases hc : (lookupObj st.objects (H data)).isSome
  · rw [if_pos hc]; exact hc
  · rw [if_neg hc]
    simp [lookupObj]

theorem countKey_eq_zero_of_none (objs : List (Digest × Bytes)) (k : Digest)
    (h : lookupObj objs k = none) : countKey objs k = 0 := by
  induction objs with
  | nil => rfl
  | cons p rest ih =>
    simp only [lookupObj] at h
    by_cases hk : p.1 = k
    · rw [if_pos hk] at h
      exact absurd h (by simp)
    · rw [if_neg hk] at h
      simp only [countKey, List.filter_cons]
      rw [if_neg (by simp [hk])]
      exact ih h

theorem countKey_eq_one (objs : List (Digest × Bytes)) (k : Digest)
    (hnd : (objs.map Prod.fst).Nodup) (h : (lookupObj objs k).isSome) :
    countKey objs k = 1 := by
  induction objs with
  | nil => simp [lookupObj] at h
  | cons p rest ih =>
    simp only [lookupObj] at h
    simp only [List.map_cons, List.nodup_cons] at hnd
    by_cases hk : p.1 = k
    · have hnone : lookupObj rest k = none := by
        rw [lookupObj_eq_none_iff]
        rw [hk] at hnd
        exact hnd.1
      simp only [countKey, List.filter_cons]
      rw [if_pos (by simp [hk])]
      simp only [List.length_cons]
      have := countKey_eq_zero_of_none rest k hnone
      simp only [countKey] at this
      omega
    · rw [if_neg hk] at h
      simp only [countKey, List.filter_cons]
      rw [if_neg (by simp [hk])]
      exact ih hnd.2 h

theorem ssoState_countKey (H : Bytes → Digest) (st : Store) (data : Bytes)
    (hwf : StoreWF H st) :
    countKey (ssoState H st data).objects (H data) = 1 :=
  countKey_eq_one _ _ (ssoState_WF H st data hwf).2 (ssoState_lookup_isSome H st data)

theorem storeChunks_spec (H : Bytes → Digest) (hinj : Function.Injective H)
    (hlen : ∀ b, 2 ≤ (H b).length) :
    ∀ (chunks : List (Digest × Bytes)) (st : Store), StoreWF H st →
    (∀ p ∈ chunks, p.1 = H p.2) →
    ∃ st2, storeChunks H st chunks = .ok st2 ∧ StoreWF H st2 ∧
      (∀ k v, lookupObj st.objects k = some v → lookupObj st2.objects k = some v) ∧
      (∀ p ∈ chunks, lookupObj st2.objects p.1 = some p.2) := by
  intro chunks
  induction chunks with
  | nil =>
    intro st hwf _
    exact ⟨st, rfl, hwf, fun _ _ h => h, by simp⟩
  | cons p rest ih =>
    intro st hwf hc
    obtain ⟨ph, pd⟩ := p
    have hph : ph = H pd := hc (ph, pd) (List.mem_cons_self _ _)
    obtain ⟨st2, heq, hwf2, hpres, hmem⟩ :=
      ih (ssoState H st pd) (ssoState_WF H st pd hwf)
        (fun q hq => hc q (List.mem_cons_of_mem _ hq))
    refine ⟨st2, ?_, hwf2, ?_, ?_⟩
    · simp only [storeChunks]
      rw [store_single_object_eq H st pd (hlen pd)]
      exact heq
    · intro k v hkv
      exact hpres k v (lookupObj_ssoState_preserve H st pd k v hkv)
    · intro q hq
      rcases List.mem_cons.mp hq with hq | hq
      · rw [hq]
        simp only
        rw [hph]
        exact hpres _ _ (lookupObj_ssoState_self H st pd hwf hinj)
      · exact hmem q hq

theorem storeChunks_noop (H : Bytes → Digest) (hlen : ∀ b, 2 ≤ (H b).length) :
    ∀ (chunks : List (Digest × Bytes)) (st : Store),
    (∀ p ∈ chunks, (lookupObj st.objects (H p.2)).isSome) →
    storeChunks H st chunks = .ok st := by
  intro chunks
  induction chunks with
  | nil => intro st _; rfl
  | cons p rest ih =>
    intro st hall
    obtain ⟨ph, pd⟩ := p
    simp only [storeChunks]
    rw [store_single_object_eq H st pd (hlen pd),
      ssoState_noop H st pd (hall (ph, pd) (List.mem_cons_self _ _))]
    exact ih st (fun q hq => hall q (List.mem_cons_of_mem _ hq))

theorem retrieveChunks_map (H : Bytes → Digest) (hlen : ∀ b, 2 ≤ (H b).length)
    (st : Store) :
    ∀ (cs : List Bytes), (∀ c ∈ cs, lookupObj st.objects (H c) = some c) →
    retrieveChunks st (cs.map H) = .ok cs.flatten := by
  intro cs
  induction cs with
  | nil => intro _; rfl
  | cons c rest ih =>
    intro hall
    simp only [List.map_cons, retrieveChunks, List.flatten_cons]
    have h1 : retrieve_single_chunk st (H c) = .ok c := by
      unfold retrieve_single_chunk
      rw [if_neg (Nat.not_lt.mpr (hlen c)), hall c (List.mem_cons_self _ _)]
    rw [h1, ih (fun x hx => hall x (List.mem_cons_of_mem _ hx))]

theorem chunk_file_fst (H : Bytes → Digest) (data : Bytes) :
    (chunk_file H data).map Prod.fst = (chunkList CHUNK_SIZE data).map H := by
  simp [chunk_file, List.map_map, Function.comp]

theorem chunk_file_hashes (H : Bytes → Digest) (data : Bytes) :
    ∀ p ∈ chunk_file H data, p.1 = H p.2 := by
  intro p hp
  simp only [chunk_file, List.mem_map] at hp
  obtain ⟨c, _, hc⟩ := hp
  rw [← hc]

theorem chunk_file_total (H : Bytes → Digest) (data : Bytes) :
    ((chunk_file H data).map (fun p => p.2.length)).sum = data.length := by
  have h1 : (chunk_file H data).map (fun p => p.2.length)
      = (chunkList CHUNK_SIZE data).map List.length := by
    simp [chunk_file, List.map_map, Function.comp]
  rw [h1, ← List.length_flatten, chunkList_flatten]

theorem create_manifest_eq (H : Bytes → Digest) (st : Store) (data : Bytes) :
    create_manifest H st (chunk_file H data) none
      = store_single_object H st
          (encodeManifest ⟨data.length, (chunkList CHUNK_SIZE data).map H, none⟩) := by
  simp only [create_manifest, chunk_file_total, chunk_file_fst]

theorem store_small_eq (H : Bytes → Digest) (st : Store) (data : Bytes)
    (hsm : ¬ data.length > CHUNK_SIZE) (hlen : 2 ≤ (H data).length) :
    store H st data = .ok (H data, ssoState H st data) := by
  simp only [store]
  rw [if_neg hsm]
  exact store_single_object_eq H st data hlen

theorem store_large_spec (H : Bytes → Digest) (hinj : Function.Injective H)
    (hlen : ∀ b, 2 ≤ (H b).length) (st : Store) (hwf : StoreWF H st)
    (data : Bytes) (hbig : data.length > CHUNK_SIZE) :
    ∃ st2,
      store H st data =
        .ok (H (encodeManifest ⟨data.length, (chunkList CHUNK_SIZE data).map H, none⟩), st2) ∧
      StoreWF H st2 ∧
      (∀ k v, lookupObj st.objects k = some v → lookupObj st2.objects k = some v) ∧
      (∀ c ∈ chunkList CHUNK_SIZE data, lookupObj st2.objects (H c) = some c) ∧
      lookupObj st2.objects
          (H (encodeManifest ⟨data.length, (chunkList CHUNK_SIZE data).map H, none⟩))
        = some (encodeManifest ⟨data.length, (chunkList CHUNK_SIZE data).map H, none⟩) := by
  obtain ⟨st1, heq1, hwf1, hpres1, hmem1⟩ :=
    storeChunks_spec H hinj hlen (chunk_file H data) st hwf (chunk_file_hashes H data)
  refine ⟨ssoState H st1 (encodeManifest ⟨data.length, (chunkList CHUNK_SIZE data).map H, none⟩),
    ?_, ssoState_WF H st1 _ hwf1, ?_, ?_, ?_⟩
  · simp only [store]
    rw [if_pos hbig, heq1]
    show create_manifest H st1 (chunk_file H data) none = _
    rw [create_manifest_eq H st1 data]
    exact store_single_object_eq H st1 _ (hlen _)
  · intro k v hkv
    exact lookupObj_ssoState_preserve H st1 _ k v (hpres1 k v hkv)
  · intro c hc
    exact lookupObj_ssoState_preserve H st1 _ _ _
      (hmem1 (H c, c) (List.mem_map.mpr ⟨c, hc, rfl⟩))
  · exact lookupObj_ssoState_self H st1 _ hwf1 hinj

theorem retrieve_of_lookup_manifest (st : Store) (h : Digest) (m : FileManifest)
    (hlen : 2 ≤ h.length) (hl : lookupObj st.objects h = some (encodeManifest m)) :
    retrieve st h = reconstruct_from_manifest st (encodeManifest m) := by
  unfold retrieve
  rw [if_neg (Nat.not_lt.mpr hlen), hl]
  show (if startsWithBrace (encodeManifest m) = true then
      reconstruct_from_manifest st (encodeManifest m)
    else Except.ok (encodeManifest m)) = reconstruct_from_manifest st (encodeManifest m)
  simp [startsWithBrace_encodeManifest]

theorem retrieve_of_lookup_raw (st : Store) (h : Digest) (data : Bytes)
    (hlen : 2 ≤ h.length) (hl : lookupObj st.objects h = some data)
    (hnb : startsWithBrace data = false) :
    retrieve st h = .ok data := by
  unfold retrieve
  rw [if_neg (Nat.not_lt.mpr hlen), hl]
  show (if startsWithBrace data = true then reconstruct_from_manifest st data
    else Except.ok data) = Except.ok data
  rw [hnb]
  simp

theorem reconstruct_encodeManifest (st : Store) (H : Bytes → Digest)
    (hlen : ∀ b, 2 ≤ (H b).length) (ts : Nat) (cs : List Bytes) (fn : Option Bytes)
    (hc : ∀ c ∈ cs, lookupObj st.objects (H c) = some c) :
    reconstruct_from_manifest st (encodeManifest ⟨ts, cs.map H, fn⟩) = .ok cs.flatten := by
  unfold reconstruct_from_manifest
  rw [decodeManifest_encodeManifest]
  exact retrieveChunks_map H hlen st cs hc

theorem emptyStore_WF (H : Bytes → Digest) : StoreWF H emptyStore :=
  ⟨fun p hp => absurd hp (by simp [emptyStore]), by simp [emptyStore]⟩

/-! ## Claim C1 -/

set_option maxRecDepth 4000 in
/-- Claim C1, counterexample: for the one-byte string `{` (byte 123),
`store` succeeds as a single object, but `retrieve` of the returned
digest sees a leading brace, attempts manifest parsing, and fails — so
`retrieve(store(bytes))` is an error, not `bytes`.  (`serde_json` fails
the same way on the string consisting of a lone brace.) -/
theorem claim_C1_counterexample :
    store cH emptyStore [123] = .ok (cH [123], ⟨[(cH [123], [123])]⟩) ∧
    retrieve ⟨[(cH [123], [123])]⟩ (cH [123]) = .error FaiErr.manifestParse := by
  constructor
  · decide
  · decide

/-- Claim C1 (amended): for every byte string whose first non-whitespace
byte is not `{` — or which is large enough to take the chunked path —
retrieving the digest returned by `store` gives back exactly the stored
bytes, for every length (0, 1, around `CHUNK_SIZE`, and multi-chunk
lengths alike).  The hash is assumed collision-free with digests of
length at least 2, and the store well-formed. -/
theorem claim_C1_amended (H : Bytes → Digest) (hinj : Function.Injective H)
    (hlen : ∀ b, 2 ≤ (H b).length) (st : Store) (hwf : StoreWF H st)
    (data : Bytes) (hok : data.length > CHUNK_SIZE ∨ startsWithBrace data = false) :
    ∃ d st2, store H st data = .ok (d, st2) ∧ retrieve st2 d = .ok data := by
  by_cases hbig : data.length > CHUNK_SIZE
  · obtain ⟨st2, heq, _, _, hchunks, hman⟩ := store_large_spec H hinj hlen st hwf data hbig
    refine ⟨_, st2, heq, ?_⟩
    rw [retrieve_of_lookup_manifest st2 _ _ (hlen _) hman,
      reconstruct_encodeManifest st2 H hlen data.length (chunkList CHUNK_SIZE data) none hchunks,
      chunkList_flatten]
  · rcases hok with hok | hnb
    · exact absurd hok hbig
    · refine ⟨H data, ssoState H st data, store_small_eq H st data hbig (hlen data), ?_⟩
      exact retrieve_of_lookup_raw _ _ _ (hlen data)
        (lookupObj_ssoState_self H st data hwf hinj) hnb

/-- Claim C1, witness: the amended round-trip at the concrete two-byte
string `[5, 6]` on an empty store with the concrete hash `cH`. -/
theorem claim_C1_witness :
    Function.Injective cH ∧ (∀ b, 2 ≤ (cH b).length) ∧ StoreWF cH emptyStore ∧
    (([5, 6] : Bytes).length > CHUNK_SIZE ∨ startsWithBrace [5, 6] = false) ∧
    (∃ d st2, store cH emptyStore [5, 6] = .ok (d, st2) ∧ retrieve st2 d = .ok [5, 6]) :=
  ⟨cH_injective, cH_length, emptyStore_WF cH, Or.inr (by decide),
    claim_C1_amended cH cH_injective cH_length emptyStore (emptyStore_WF cH)
      [5, 6] (Or.inr (by decide))⟩

/-! ## Claim C3 -/

/-- Claim C3: for data longer than `CHUNK_SIZE`, `store` splits it into
contiguous chunks that reassemble to the data, all of length exactly
`CHUNK_SIZE` except a shorter, nonempty last one; each chunk is stored
as a blob under its own digest; the stored manifest records the chunk
digests in order with `total_size` equal to the data's length; and the
returned digest is the manifest's.  For data of at most `CHUNK_SIZE`
bytes, `store` returns the digest of the bytes stored as a single
object. -/
theorem claim_C3_chunking (H : Bytes → Digest) (hinj : Function.Injective H)
    (hlen : ∀ b, 2 ≤ (H b).length) (st : Store) (hwf : StoreWF H st) (data : Bytes) :
    (data.length > CHUNK_SIZE →
      (chunkList CHUNK_SIZE data).flatten = data ∧
      (∀ c ∈ (chunkList CHUNK_SIZE data).dropLast, c.length = CHUNK_SIZE) ∧
      (∀ c ∈ chunkList CHUNK_SIZE data, c.length ≤ CHUNK_SIZE ∧ c ≠ []) ∧
      ∃ st2,
        store H st data =
          .ok (H (encodeManifest
            ⟨data.length, (chunkList CHUNK_SIZE data).map H, none⟩), st2) ∧
        (∀ c ∈ chunkList CHUNK_SIZE data, lookupObj st2.objects (H c) = some c) ∧
        lookupObj st2.objects
            (H (encodeManifest ⟨data.length, (chunkList CHUNK_SIZE data).map H, none⟩))
          = some (encodeManifest ⟨data.length, (chunkList CHUNK_SIZE data).map H, none⟩)) ∧
    (data.length ≤ CHUNK_SIZE →
      store H st data = .ok (H data, ssoState H st data) ∧
      lookupObj (ssoState H st data).objects (H data) = some data) := by
  constructor
  · intro hbig
    refine ⟨chunkList_flatten _ _,
      chunkList_dropLast_length _ (by norm_num [CHUNK_SIZE]) _,
      mem_chunkList _ (by norm_num [CHUNK_SIZE]) _, ?_⟩
    obtain ⟨st2, heq, _, _, hchunks, hman⟩ := store_large_spec H hinj hlen st hwf data hbig
    exact ⟨st2, heq, hchunks, hman⟩
  · intro hsm
    exact ⟨store_small_eq H st data (Nat.not_lt.mpr hsm) (hlen data),
      lookupObj_ssoState_self H st data hwf hinj⟩

/-- Claim C3, witness: the chunking specification applied at the concrete
hash `cH`, the empty store and the three-byte string `[1, 2, 3]`. -/
theorem claim_C3_witness :
    Function.Injective cH ∧ (∀ b, 2 ≤ (cH b).length) ∧ StoreWF cH emptyStore ∧
    (([1, 2, 3] : Bytes).length ≤ CHUNK_SIZE →
      store cH emptyStore [1, 2, 3] = .ok (cH [1, 2, 3], ssoState cH emptyStore [1, 2, 3]) ∧
      lookupObj (ssoState cH emptyStore [1, 2, 3]).objects (cH [1, 2, 3]) = some [1, 2, 3]) :=
  ⟨cH_injective, cH_length, emptyStore_WF cH,
    (claim_C3_chunking cH cH_injective cH_length emptyStore (emptyStore_WF cH) [1, 2, 3]).2⟩

/-! ## Claim C8 -/

/-- Claim C8: `store` is idempotent and deterministic — a first store of
`data` yields a digest and a state on which a second store of the same
bytes is a complete no-op returning the same digest, and the resulting
store holds exactly one on-disk copy under that digest. -/
theorem claim_C8_idempotent (H : Bytes → Digest) (hinj : Function.Injective H)
    (hlen : ∀ b, 2 ≤ (H b).length) (st : Store) (hwf : StoreWF H st) (data : Bytes) :
    ∃ d st1, store H st data = .ok (d, st1) ∧
      store H st1 data = .ok (d, st1) ∧
      countKey st1.objects d = 1 := by
  by_cases hbig : data.length > CHUNK_SIZE
  · obtain ⟨st1, heq, hwf1, _, hchunks, hman⟩ := store_large_spec H hinj hlen st hwf data hbig
    have hall : ∀ p ∈ chunk_file H data, (lookupObj st1.objects (H p.2)).isSome := by
      intro p hp
      simp only [chunk_file, List.mem_map] at hp
      obtain ⟨c, hc, hpc⟩ := hp
      rw [← hpc]
      rw [hchunks c hc]
      rfl
    refine ⟨_, st1, heq, ?_, ?_⟩
    · simp only [store]
      rw [if_pos hbig, storeChunks_noop H hlen (chunk_file H data) st1 hall]
      show create_manifest H st1 (chunk_file H data) none = _
      rw [create_manifest_eq H st1 data, store_single_object_eq H st1 _ (hlen _),
        ssoState_noop H st1 _ (by rw [hman]; rfl)]
    · exact countKey_eq_one _ _ hwf1.2 (by rw [hman]; rfl)
  · refine ⟨H data, ssoState H st data, store_small_eq H st data hbig (hlen data), ?_, ?_⟩
    · rw [store_small_eq H (ssoState H st data) data hbig (hlen data),
        ssoState_noop H (ssoState H st data) data (ssoState_lookup_isSome H st data)]
    · exact ssoState_countKey H st data hwf

/-- Claim C8, witness: idempotence of `store` at the concrete hash `cH`,
the empty store and the byte string `[9]`. -/
theorem claim_C8_witness :
    Function.Injective cH ∧ (∀ b, 2 ≤ (cH b).length) ∧ StoreWF cH emptyStore ∧
    (∃ d st1, store cH emptyStore [9] = .ok (d, st1) ∧
      store cH st1 [9] = .ok (d, st1) ∧
      countKey st1.objects d = 1) :=
  ⟨cH_injective, cH_length, emptyStore_WF cH,
    claim_C8_idempotent cH cH_injective cH_length emptyStore (emptyStore_WF cH) [9]⟩

/-! ## Claim C10 -/

/-- Claim C10: for every digest string shorter than 2 characters,
`exists` returns `false` and both `retrieve` and `retrieve_single_chunk`
return the invalid-hash-length error; the 2-character prefix slicing is
guarded, so none of them can panic. -/
theorem claim_C10_short_digest (st : Store) (h : Digest) (hshort : h.length < 2) :
    existsHash st h = false ∧
    retrieve st h = .error FaiErr.invalidHashLength ∧
    retrieve_single_chunk st h = .error FaiErr.invalidHashLength := by
  refine ⟨?_, ?_, ?_⟩
  · simp [existsHash, hshort]
  · simp [retrieve, hshort]
  · simp [retrieve_single_chunk, hshort]

/-- Claim C10, witness: the guard at the empty digest on the empty
store. -/
theorem claim_C10_witness :
    ([] : Digest).length < 2 ∧
    (existsHash emptyStore [] = false ∧
      retrieve emptyStore [] = .error FaiErr.invalidHashLength ∧
      retrieve_single_chunk emptyStore [] = .error FaiErr.invalidHashLength) :=
  ⟨by decide, claim_C10_short_digest emptyStore [] (by decide)⟩

/-! ## Metadata-index lemmas -/

theorem insertParents_cons (db : DBState) (h p : List Nat) (rest : List (List Nat)) (i : Nat) :
    insertParents db h (p :: rest) i
      = if db.commit_parents.any
            (fun r => decide (r.commit_hash = h) && decide (r.parent_order = i)) = true
        then (.error .pkViolation, db)
        else if hasCommit db p = true
        then insertParents
          { db with commit_parents := db.commit_parents ++ [⟨h, p, i⟩] } h rest (i + 1)
        else (.error .fkViolation, db) := rfl

theorem insertFiles_cons (db : DBState) (h p fh : List Nat) (sz : Nat) (rest : List StagedRow) :
    insertFiles db h ((p, fh, sz) :: rest)
      = if db.commit_files.any
            (fun r => decide (r.commit_hash = h) && decide (r.file_path = p)) = true
        then insertFiles db h rest
        else insertFiles
          { db with commit_files := db.commit_files ++ [⟨h, p, fh, sz⟩] } h rest := rfl

theorem insertParents_frame : ∀ (ps : List (List Nat)) (db : DBState) (h : List Nat) (i : Nat),
    (insertParents db h ps i).2.commits = db.commits ∧
    (insertParents db h ps i).2.commit_files = db.commit_files ∧
    (insertParents db h ps i).2.staging = db.staging := by
  intro ps
  induction ps with
  | nil =>
    intro db h i
    exact ⟨rfl, rfl, rfl⟩
  | cons p rest ih =>
    intro db h i
    rw [insertParents_cons]
    by_cases h1 : db.commit_parents.any
        (fun r => decide (r.commit_hash = h) && decide (r.parent_order = i)) = true
    · rw [if_pos h1]
      exact ⟨rfl, rfl, rfl⟩
    · rw [if_neg h1]
      by_cases h2 : hasCommit db p = true
      · rw [if_pos h2]
        exact ih { db with commit_parents := db.commit_parents ++ [⟨h, p, i⟩] } h (i + 1)
      · rw [if_neg h2]
        exact ⟨rfl, rfl, rfl⟩

theorem insertParents_fst : ∀ (ps : List (List Nat)) (db : DBState) (h : List Nat) (i : Nat),
    (insertParents db h ps i).1 = .ok () ∨
    (insertParents db h ps i).1 = .error FaiErr.fkViolation ∨
    (insertParents db h ps i).1 = .error FaiErr.pkViolation := by
  intro ps
  induction ps with
  | nil =>
    intro db h i
    exact Or.inl rfl
  | cons p rest ih =>
    intro db h i
    rw [insertParents_cons]
    by_cases h1 : db.commit_parents.any
        (fun r => decide (r.commit_hash = h) && decide (r.parent_order = i)) = true
    · rw [if_pos h1]
      exact Or.inr (Or.inr rfl)
    · rw [if_neg h1]
      by_cases h2 : hasCommit db p = true
      · rw [if_pos h2]
        exact ih { db with commit_parents := db.commit_parents ++ [⟨h, p, i⟩] } h (i + 1)
      · rw [if_neg h2]
        exact Or.inr (Or.inl rfl)

theorem insertParents_ok : ∀ (ps : List (List Nat)) (db : DBState) (h : List Nat) (i : Nat)
    (db2 : DBState), insertParents db h ps i = (.ok (), db2) →
    db2.commit_parents = db.commit_parents ++ parentRows h ps i := by
  intro ps
  induction ps with
  | nil =>
    intro db h i db2 heq
    have hdb : db = db2 := congrArg Prod.snd heq
    rw [← hdb, parentRows, List.append_nil]
  | cons p rest ih =>
    intro db h i db2 heq
    rw [insertParents_cons] at heq
    by_cases h1 : db.commit_parents.any
        (fun r => decide (r.commit_hash = h) && decide (r.parent_order = i)) = true
    · rw [if_pos h1] at heq
      exact absurd (congrArg Prod.fst heq) (by simp)
    · rw [if_neg h1] at heq
      by_cases h2 : hasCommit db p = true
      · rw [if_pos h2] at heq
        have hres := ih { db with commit_parents := db.commit_parents ++ [⟨h, p, i⟩] }
          h (i + 1) db2 heq
        simp only at hres
        rw [hres, parentRows, List.append_assoc, List.singleton_append]
      · rw [if_neg h2] at heq
        exact absurd (congrArg Prod.fst heq) (by simp)

theorem insertFiles_frame : ∀ (fs : List StagedRow) (db : DBState) (h : List Nat),
    (insertFiles db h fs).commits = db.commits ∧
    (insertFiles db h fs).commit_parents = db.commit_parents ∧
    (insertFiles db h fs).staging = db.staging := by
  intro fs
  induction fs with
  | nil =>
    intro db h
    exact ⟨rfl, rfl, rfl⟩
  | cons f rest ih =>
    intro db h
    obtain ⟨p, fh, sz⟩ := f
    rw [insertFiles_cons]
    by_cases h1 : db.commit_files.any
        (fun r => decide (r.commit_hash = h) && decide (r.file_path = p)) = true
    · rw [if_pos h1]
      exact ih db h
    · rw [if_neg h1]
      exact ih { db with commit_files := db.commit_files ++ [⟨h, p, fh, sz⟩] } h

theorem create_commit_eq (db : DBState) (hash msg : List Nat) (parents : List (List Nat))
    (files : List StagedRow) (im : Bool) (now : Int) :
    create_commit db hash msg parents files im now
      = if hash = [] then (.error .emptyHash, db)
        else if trimList msg = [] then (.error .emptyMessage, db)
        else if hasCommit db hash = true then (.ok (), db)
        else
          match insertParents
              { db with commits := db.commits ++ [⟨hash, msg, now, im⟩] } hash parents 0 with
          | (.error e, db2) => (.error e, db2)
          | (.ok _, db2) => (.ok (), insertFiles db2 hash files) := rfl

theorem create_commit_staging (db : DBState) (hash msg : List Nat)
    (parents : List (List Nat)) (files : List StagedRow) (im : Bool) (now : Int) :
    (create_commit db hash msg parents files im now).2.staging = db.staging := by
  rw [create_commit_eq]
  by_cases h1 : hash = []
  · rw [if_pos h1]
  · rw [if_neg h1]
    by_cases h2 : trimList msg = []
    · rw [if_pos h2]
    · rw [if_neg h2]
      by_cases h3 : hasCommit db hash = true
      · rw [if_pos h3]
      · rw [if_neg h3]
        rcases hins : insertParents
            { db with commits := db.commits ++ [⟨hash, msg, now, im⟩] } hash parents 0
          with ⟨fst, dbp⟩
        have hfr := insertParents_frame parents
          { db with commits := db.commits ++ [⟨hash, msg, now, im⟩] } hash 0
        rw [hins] at hfr
        cases fst with
        | error e => exact hfr.2.2
        | ok u =>
          show (insertFiles dbp hash files).staging = db.staging
          rw [(insertFiles_frame files dbp hash).2.2]
          exact hfr.2.2

theorem create_commit_ne_emptyCommit (db : DBState) (hash msg : List Nat)
    (parents : List (List Nat)) (files : List StagedRow) (im : Bool) (now : Int) :
    (create_commit db hash msg parents files im now).1 ≠ .error FaiErr.emptyCommit := by
  rw [create_commit_eq]
  by_cases h1 : hash = []
  · rw [if_pos h1]
    simp
  · rw [if_neg h1]
    by_cases h2 : trimList msg = []
    · rw [if_pos h2]
      simp
    · rw [if_neg h2]
      by_cases h3 : hasCommit db hash = true
      · rw [if_pos h3]
        simp
      · rw [if_neg h3]
        rcases hins : insertParents
            { db with commits := db.commits ++ [⟨hash, msg, now, im⟩] } hash parents 0
          with ⟨fst, dbp⟩
        have hful := insertParents_fst parents
          { db with commits := db.commits ++ [⟨hash, msg, now, im⟩] } hash 0
        rw [hins] at hful
        cases fst with
        | error e =>
          intro hcon
          have he : e = FaiErr.emptyCommit := Except.error.inj hcon
          rcases hful with hful | hful | hful
          · exact absurd hful (by simp)
          · rw [he] at hful
            exact absurd hful (by simp)
          · rw [he] at hful
            exact absurd hful (by simp)
        | ok u =>
          intro hcon
          exact absurd hcon (by simp)

theorem create_commit_ok_parents (db : DBState) (hash msg : List Nat)
    (parents : List (List Nat)) (files : List StagedRow) (im : Bool) (now : Int)
    (h1 : hash ≠ []) (h2 : trimList msg ≠ []) (h3 : hasCommit db hash = false)
    (hok : (create_commit db hash msg parents files im now).1 = .ok ()) :
    (create_commit db hash msg parents files im now).2.commit_parents
      = db.commit_parents ++ parentRows hash parents 0 := by
  rw [create_commit_eq] at hok ⊢
  rw [if_neg h1, if_neg h2, if_neg (by rw [h3]; simp)] at hok ⊢
  rcases hins : insertParents
      { db with commits := db.commits ++ [⟨hash, msg, now, im⟩] } hash parents 0
    with ⟨fst, dbp⟩
  rw [hins] at hok
  cases fst with
  | error e => exact Except.noConfusion hok
  | ok u =>
    show (insertFiles dbp hash files).commit_parents = _
    rw [(insertFiles_frame files dbp hash).2.1]
    have := insertParents_ok parents _ hash 0 dbp hins
    simp only at this
    exact this

theorem get_staged_files_eq_nil_iff (db : DBState) :
    get_staged_files db = [] ↔ db.staging = [] := by
  constructor
  · intro h
    have hp := List.perm_insertionSort
      (fun a b : StagedRow => listLexLt a.1 b.1 ∨ a.1 = b.1) db.staging
    unfold get_staged_files at h
    rw [h] at hp
    have hl := hp.length_eq
    simp only [List.length_nil] at hl
    exact List.length_eq_zero.mp hl.symm
  · intro h
    unfold get_staged_files
    rw [h]
    rfl

theorem parentRows_map (h : List Nat) : ∀ (ps : List (List Nat)) (i : Nat),
    (parentRows h ps i).map ParentRow.parent_hash = ps := by
  intro ps
  induction ps with
  | nil => intro i; rfl
  | cons p rest ih =>
    intro i
    simp only [parentRows, List.map_cons, ih]

theorem parentRows_hash (h : List Nat) : ∀ (ps : List (List Nat)) (i : Nat),
    ∀ r ∈ parentRows h ps i, r.commit_hash = h := by
  intro ps
  induction ps with
  | nil => intro i r hr; simp [parentRows] at hr
  | cons p rest ih =>
    intro i r hr
    simp only [parentRows, List.mem_cons] at hr
    rcases hr with hr | hr
    · rw [hr]
    · exact ih (i + 1) r hr

theorem parentRows_order_ge (h : List Nat) : ∀ (ps : List (List Nat)) (i : Nat),
    ∀ r ∈ parentRows h ps i, i ≤ r.parent_order := by
  intro ps
  induction ps with
  | nil => intro i r hr; simp [parentRows] at hr
  | cons p rest ih =>
    intro i r hr
    simp only [parentRows, List.mem_cons] at hr
    rcases hr with hr | hr
    · rw [hr]
    · exact Nat.le_of_succ_le (ih (i + 1) r hr)

theorem parentRows_sorted (h : List Nat) : ∀ (ps : List (List Nat)) (i : Nat),
    List.Sorted (fun a b : ParentRow => a.parent_order ≤ b.parent_order)
      (parentRows h ps i) := by
  intro ps
  induction ps with
  | nil => intro i; simp [parentRows]
  | cons p rest ih =>
    intro i
    simp only [parentRows, List.sorted_cons]
    exact ⟨fun r hr => Nat.le_of_succ_le (parentRows_order_ge h rest (i + 1) r hr), ih (i + 1)⟩

theorem parentsOf_eq (old : List ParentRow) (d : List Nat) (ps : List (List Nat))
    (hold : ∀ r ∈ old, r.commit_hash ≠ d) (db : DBState)
    (hdb : db.commit_parents = old ++ parentRows d ps 0) :
    parentsOf db d = ps := by
  unfold parentsOf
  rw [hdb, List.filter_append]
  have h1 : old.filter (fun r => decide (r.commit_hash = d)) = [] := by
    rw [List.filter_eq_nil_iff]
    intro r hr
    simpa using hold r hr
  have h2 : (parentRows d ps 0).filter (fun r => decide (r.commit_hash = d))
      = parentRows d ps 0 := by
    rw [List.filter_eq_self]
    intro r hr
    simpa using parentRows_hash d ps 0 r hr
  rw [h1, h2, List.nil_append,
    List.Sorted.insertionSort_eq (parentRows_sorted d ps 0), parentRows_map]

theorem commitOp_eq (mk : Int → List Nat → List StagedRow → List Nat) (now : Int)
    (message : List Nat) (s : FaiState) :
    commitOp mk now message s
      = if get_staged_files s.db = [] then (.error .emptyCommit, s)
        else
          match create_commit s.db (mk now message (get_staged_files s.db)) message
              (match get_head s with | some p => [p] | none => [])
              (get_staged_files s.db) false now with
          | (.error e, db2) => (.error e, { s with db := db2 })
          | (.ok _, db2) =>
            (.ok (mk now message (get_staged_files s.db)),
              { db := clear_staging db2,
                headFile := some (mk now message (get_staged_files s.db)) }) := rfl

/-! ## Claim C4 -/

/-- Claim C4, evaluation at the failing input: `create_commit` runs its
inserts with no enclosing transaction.  On an empty database, creating
commit `[99]` with parent `[98]` (which does not exist) fails the
parent-row foreign key, yet the commit row has already been inserted and
remains with no parent rows — neither all of the commit's rows nor none
are present, refuting atomicity.  The idempotency half of the claim does
hold: replaying an existing digest is a no-op (last conjunct). -/
theorem claim_C4_nonatomic :
    (create_commit emptyDB [99] [109] [[98]] [] false 0).1 = .error FaiErr.fkViolation ∧
    hasCommit (create_commit emptyDB [99] [109] [[98]] [] false 0).2 [99] = true ∧
    (create_commit emptyDB [99] [109] [[98]] [] false 0).2.commit_parents = [] ∧
    (create_commit (create_commit emptyDB [99] [109] [] [] false 0).2 [99] [109] [] [] false 0)
      = (.ok (), (create_commit emptyDB [99] [109] [] [] false 0).2) := by
  refine ⟨?_, ?_, ?_, ?_⟩ <;> decide

/-! ## Claim C5 -/

/-- Claim C5, counterexample: committing the same staged file with the
same message twice within the same millisecond makes the second commit
payload — and so the second commit digest — equal to the first.  The
second `commit` succeeds and returns that digest, and the prior HEAD at
that point is the digest itself, but `create_commit` silently skipped
insertion (digest already present), so the stored commit's parent list
is `[]` and not `[prior HEAD]` as the claim requires. -/
theorem claim_C5_counterexample :
    demoCommit2.1 = .ok [55, 109] ∧
    get_head demoRepo1 = some [55, 109] ∧
    parentsOf demoCommit2.2.db [55, 109] = [] ∧
    ([] : List (List Nat)) ≠ [[55, 109]] := by
  refine ⟨?_, ?_, ?_, ?_⟩ <;> decide

/-- Claim C5 (amended): provided the derived commit digest is fresh (not
already a commit-table key — the situation violated only by a same-
millisecond replay of an identical payload), is unchanged by trimming,
does not begin with `ref:`, and the parent table satisfies its foreign
key towards `commits`, then: `commit` fails with the empty error exactly
when the staging table is empty; every failure leaves the HEAD file and
the staging table unchanged; and on success the staging area is empty,
HEAD resolves to the returned digest, and the stored commit's parent
list is exactly the prior HEAD (empty when there was none). -/
theorem claim_C5_amended (mk : Int → List Nat → List StagedRow → List Nat)
    (now : Int) (message : List Nat) (s : FaiState)
    (hfresh : hasCommit s.db (mk now message (get_staged_files s.db)) = false)
    (href : startsWithSeq refMarker (mk now message (get_staged_files s.db)) = false)
    (htrim : trimList (mk now message (get_staged_files s.db))
      = mk now message (get_staged_files s.db))
    (hpc : ParentRowsClosed s.db) :
    ((commitOp mk now message s).1 = .error FaiErr.emptyCommit ↔ s.db.staging = []) ∧
    (∀ e, (commitOp mk now message s).1 = .error e →
      (commitOp mk now message s).2.headFile = s.headFile ∧
      (commitOp mk now message s).2.db.staging = s.db.staging) ∧
    (∀ d, (commitOp mk now message s).1 = .ok d →
      d = mk now message (get_staged_files s.db) ∧
      get_staged_files (commitOp mk now message s).2.db = [] ∧
      get_head (commitOp mk now message s).2 = some d ∧
      parentsOf (commitOp mk now message s).2.db d
        = (match get_head s with | some p => [p] | none => [])) := by
  by_cases hst : get_staged_files s.db = []
  · have hred : commitOp mk now message s = (.error .emptyCommit, s) := by
      rw [commitOp_eq, if_pos hst]
    rw [hred]
    refine ⟨⟨fun _ => (get_staged_files_eq_nil_iff s.db).mp hst, fun _ => rfl⟩, ?_, ?_⟩
    · intro e _
      exact ⟨rfl, rfl⟩
    · intro d hd
      exact Except.noConfusion hd
  · rcases hcc : create_commit s.db (mk now message (get_staged_files s.db)) message
        (match get_head s with | some p => [p] | none => [])
        (get_staged_files s.db) false now with ⟨fst, db2⟩
    cases fst with
    | error e0 =>
      have hred : commitOp mk now message s = (.error e0, { s with db := db2 }) := by
        rw [commitOp_eq, if_neg hst, hcc]
      rw [hred]
      refine ⟨⟨?_, ?_⟩, ?_, ?_⟩
      · intro h1
        have he0 : e0 = FaiErr.emptyCommit := Except.error.inj h1
        have hne := create_commit_ne_emptyCommit s.db
          (mk now message (get_staged_files s.db)) message
          (match get_head s with | some p => [p] | none => [])
          (get_staged_files s.db) false now
        rw [hcc, he0] at hne
        exact (hne rfl).elim
      · intro h2
        exact absurd ((get_staged_files_eq_nil_iff s.db).mpr h2) hst
      · intro e _
        refine ⟨rfl, ?_⟩
        have hstg := create_commit_staging s.db
          (mk now message (get_staged_files s.db)) message
          (match get_head s with | some p => [p] | none => [])
          (get_staged_files s.db) false now
        rw [hcc] at hstg
        exact hstg
      · intro d hd
        exact Except.noConfusion hd
    | ok u =>
      have hred : commitOp mk now message s
          = (.ok (mk now message (get_staged_files s.db)),
            { db := clear_staging db2,
              headFile := some (mk now message (get_staged_files s.db)) }) := by
        rw [commitOp_eq, if_neg hst, hcc]
      rw [hred]
      refine ⟨⟨?_, ?_⟩, ?_, ?_⟩
      · intro h1
        exact Except.noConfusion h1
      · intro h2
        exact absurd ((get_staged_files_eq_nil_iff s.db).mpr h2) hst
      · intro e he
        exact Except.noConfusion he
      · intro d hd
        have hdd : mk now message (get_staged_files s.db) = d := Except.ok.inj hd
        cases hdd
        have hh1 : mk now message (get_staged_files s.db) ≠ [] := by
          intro hz
          rw [create_commit_eq, if_pos hz] at hcc
          exact Except.noConfusion (congrArg Prod.fst hcc)
        have hh2 : trimList message ≠ [] := by
          intro hz
          rw [create_commit_eq, if_neg hh1, if_pos hz] at hcc
          exact Except.noConfusion (congrArg Prod.fst hcc)
        have hpar := create_commit_ok_parents s.db
          (mk now message (get_staged_files s.db)) message
          (match get_head s with | some p => [p] | none => [])
          (get_staged_files s.db) false now hh1 hh2 hfresh (by rw [hcc])
        rw [hcc] at hpar
        refine ⟨rfl, rfl, ?_, ?_⟩
        · show (if startsWithSeq refMarker (mk now message (get_staged_files s.db)) = true
            then none
            else some (trimList (mk now message (get_staged_files s.db))))
            = some (mk now message (get_staged_files s.db))
          rw [href]
          simp [htrim]
        · refine parentsOf_eq s.db.commit_parents _ _ ?_ _ ?_
          · intro r hr hcon
            have hcr := hpc r hr
            rw [hcon, hfresh] at hcr
            exact Bool.noConfusion hcr
          · exact hpar

/-- Claim C5, witness: the amended commit contract applied to the
concrete repository with one staged file, no HEAD, the payload-determined
digest function `demoMk`, timestamp 5 and message `m`. -/
theorem claim_C5_witness :
    hasCommit demoRepo0.db (demoMk 5 [109] (get_staged_files demoRepo0.db)) = false ∧
    startsWithSeq refMarker (demoMk 5 [109] (get_staged_files demoRepo0.db)) = false ∧
    trimList (demoMk 5 [109] (get_staged_files demoRepo0.db))
      = demoMk 5 [109] (get_staged_files demoRepo0.db) ∧
    ParentRowsClosed demoRepo0.db ∧
    (((commitOp demoMk 5 [109] demoRepo0).1 = .error FaiErr.emptyCommit
        ↔ demoRepo0.db.staging = []) ∧
      (∀ e, (commitOp demoMk 5 [109] demoRepo0).1 = .error e →
        (commitOp demoMk 5 [109] demoRepo0).2.headFile = demoRepo0.headFile ∧
        (commitOp demoMk 5 [109] demoRepo0).2.db.staging = demoRepo0.db.staging) ∧
      (∀ d, (commitOp demoMk 5 [109] demoRepo0).1 = .ok d →
        d = demoMk 5 [109] (get_staged_files demoRepo0.db) ∧
        get_staged_files (commitOp demoMk 5 [109] demoRepo0).2.db = [] ∧
        get_head (commitOp demoMk 5 [109] demoRepo0).2 = some d ∧
        parentsOf (commitOp demoMk 5 [109] demoRepo0).2.db d
          = (match get_head demoRepo0 with | some p => [p] | none => []))) :=
  ⟨by decide, by decide, by decide,
    (by intro r hr; exact absurd hr (List.not_mem_nil r)),
    claim_C5_amended demoMk 5 [109] demoRepo0 (by decide) (by decide) (by decide)
      (by intro r hr; exact absurd hr (List.not_mem_nil r))⟩

/-! ## Claim C9 -/

/-- Claim C9, counterexample: with two commits sharing timestamp 5,
inserted with hash `a` (code 97) before hash `b` (code 98),
`get_commit_history` returns them in table order `[a, b]` — the SQL
orders by timestamp alone — while the claimed timestamp-descending,
hash-descending order would require `[b, a]`. -/
theorem claim_C9_counterexample :
    (get_commit_history demoHistoryRows none).map CommitRow.hash = [[97], [98]] ∧
    specHistoryOrderedB (get_commit_history demoHistoryRows none) = false := by
  constructor
  · decide
  · decide

/-- Claim C9 (amended): `get_commit_history` returns the commit rows
sorted by timestamp descending — rows with equal timestamps keep their
table order, with no hash tiebreak — as a permutation of the table; a
limit takes the first rows of that same order. -/
theorem claim_C9_amended (rows : List CommitRow) :
    List.Sorted tsDesc (get_commit_history rows none) ∧
    (get_commit_history rows none).Perm rows ∧
    (∀ n, get_commit_history rows (some n) = (get_commit_history rows none).take n) := by
  refine ⟨?_, ?_, ?_⟩
  · exact List.sorted_insertionSort tsDesc rows
  · exact List.perm_insertionSort tsDesc rows
  · intro n
    rfl

/-! ## Claim C7 -/

/-- Claim C7, counterexample: when the 10-second wait elapses with no
matching event (the empty event trace), `request_chunk` returns
`Ok(None)` — not a `Timeout` error — and that result is identical to the
one produced by a successful response carrying nil data, so the two
cases are indistinguishable. -/
theorem claim_C7_counterexample :
    request_chunk_wait [] = .ok none ∧
    request_chunk_wait [] ≠ .error FaiErr.timeout ∧
    request_chunk_wait [RCEvent.respMatch none] = request_chunk_wait [] := by
  refine ⟨rfl, by decide, rfl⟩

/-- Claim C7 (amended): when no event matching the request (response or
outbound failure) arrives before the deadline, `request_chunk` returns
successfully with no data — `Ok(None)`, the same value as a response
carrying nil data — and never a `Timeout` error. -/
theorem claim_C7_amended (evs : List RCEvent)
    (hnm : ∀ e ∈ evs,
      e = RCEvent.respOther ∨ e = RCEvent.failOther ∨ e = RCEvent.other) :
    request_chunk_wait evs = .ok none := by
  induction evs with
  | nil => rfl
  | cons e rest ih =>
    have hrest := ih (fun x hx => hnm x (List.mem_cons_of_mem _ hx))
    rcases hnm e (List.mem_cons_self _ _) with he | he | he <;> subst he <;>
      simpa only [request_chunk_wait] using hrest

/-- Claim C7, witness: the amended statement at the singleton trace of
one unrelated swarm event. -/
theorem claim_C7_witness :
    (∀ e ∈ [RCEvent.other],
      e = RCEvent.respOther ∨ e = RCEvent.failOther ∨ e = RCEvent.other) ∧
    request_chunk_wait [RCEvent.other] = .ok none :=
  ⟨by decide, claim_C7_amended [RCEvent.other] (by decide)⟩

/-! ## Claim C6 -/

set_option maxRecDepth 4000 in
/-- Claim C6, counterexample: storing the serialised empty manifest as an
ordinary blob (exactly what a clone does with downloaded manifest bytes)
and then requesting its digest makes the responder answer with the
reconstructed payload `[]` — the result of manifest interpretation by
`retrieve` — and not with the manifest bytes themselves, refuting the
raw-read (`open_chunk`) part of the claim. -/
theorem claim_C6_counterexample :
    store cH emptyStore demoManifestBytes
      = .ok (cH demoManifestBytes, demoManifestStore) ∧
    (respondChunk demoManifestStore (cH demoManifestBytes)).data = some [] ∧
    demoManifestBytes ≠ [] := by
  refine ⟨?_, ?_, ?_⟩ <;> decide

/-- Claim C6 (amended): the responder answers a chunk request with
`StorageManager::retrieve` — manifest-interpreting, not a raw read — so
a request for a digest it does not have yields a response with
`data = nil` (the substream is answered, not dropped, and the store is
untouched so later requests are served the same way), and a request for
the digest returned by a multi-chunk `store` yields the reassembled
original bytes rather than the manifest bytes. -/
theorem claim_C6_amended (H : Bytes → Digest) (hinj : Function.Injective H)
    (hlen : ∀ b, 2 ≤ (H b).length) (st : Store) (hwf : StoreWF H st) :
    (∀ h, lookupObj st.objects h = none → respondChunk st h = ⟨h, none⟩) ∧
    (∀ data, data.length > CHUNK_SIZE →
      ∃ d st2, store H st data = .ok (d, st2) ∧
        respondChunk st2 d = ⟨d, some data⟩) := by
  constructor
  · intro h hnone
    unfold respondChunk retrieve
    by_cases hl : h.length < 2
    · rw [if_pos hl]
      rfl
    · rw [if_neg hl, hnone]
      rfl
  · intro data hbig
    obtain ⟨st2, heq, _, _, hchunks, hman⟩ := store_large_spec H hinj hlen st hwf data hbig
    refine ⟨_, st2, heq, ?_⟩
    unfold respondChunk
    rw [retrieve_of_lookup_manifest st2 _ _ (hlen _) hman,
      reconstruct_encodeManifest st2 H hlen data.length (chunkList CHUNK_SIZE data) none hchunks,
      chunkList_flatten]
    rfl

/-- Claim C6, witness: the amended responder contract on the empty store
with the concrete hash `cH`, applied to the unstored digest `[1, 2]` and
to a stored blob of 1 MiB + 1 zero bytes. -/
theorem claim_C6_witness :
    Function.Injective cH ∧ (∀ b, 2 ≤ (cH b).length) ∧ StoreWF cH emptyStore ∧
    (lookupObj emptyStore.objects [1, 2] = none →
      respondChunk emptyStore [1, 2] = ⟨[1, 2], none⟩) ∧
    ((List.replicate (CHUNK_SIZE + 1) 0).length > CHUNK_SIZE →
      ∃ d st2, store cH emptyStore (List.replicate (CHUNK_SIZE + 1) 0) = .ok (d, st2) ∧
        respondChunk st2 d = ⟨d, some (List.replicate (CHUNK_SIZE + 1) 0)⟩) :=
  ⟨cH_injective, cH_length, emptyStore_WF cH,
    fun hn => (claim_C6_amended cH cH_injective cH_length emptyStore (emptyStore_WF cH)).1
      [1, 2] hn,
    fun hb => (claim_C6_amended cH cH_injective cH_length emptyStore (emptyStore_WF cH)).2
      (List.replicate (CHUNK_SIZE + 1) 0) hb⟩

/-! ## Clone lemmas -/

theorem storeChunks_always_ok (H : Bytes → Digest) (hlen : ∀ b, 2 ≤ (H b).length) :
    ∀ (chunks : List (Digest × Bytes)) (st : Store),
    ∃ st2, storeChunks H st chunks = .ok st2 := by
  intro chunks
  induction chunks with
  | nil => intro st; exact ⟨st, rfl⟩
  | cons p rest ih =>
    intro st
    obtain ⟨ph, pd⟩ := p
    obtain ⟨st2, h2⟩ := ih (ssoState H st pd)
    refine ⟨st2, ?_⟩
    simp only [storeChunks]
    rw [store_single_object_eq H st pd (hlen pd)]
    exact h2

theorem store_always_ok (H : Bytes → Digest) (hlen : ∀ b, 2 ≤ (H b).length)
    (st : Store) (data : Bytes) : ∃ d st2, store H st data = .ok (d, st2) := by
  by_cases hbig : data.length > CHUNK_SIZE
  · obtain ⟨st1, h1⟩ := storeChunks_always_ok H hlen (chunk_file H data) st
    have hstep : store H st data
        = store_single_object H st1
            (encodeManifest ⟨data.length, (chunkList CHUNK_SIZE data).map H, none⟩) := by
      simp only [store]
      rw [if_pos hbig, h1]
      show create_manifest H st1 (chunk_file H data) none = _
      rw [create_manifest_eq H st1 data]
    rw [hstep, store_single_object_eq H st1 _ (hlen _)]
    exact ⟨_, _, rfl⟩
  · exact ⟨_, _, store_small_eq H st data hbig (hlen data)⟩

theorem addFileRows_metaCommits : ∀ (l : List (List Nat)) (cs : CloneState) (h : List Nat),
    (addFileRows cs h l).metaCommits = cs.metaCommits := by
  intro l
  induction l with
  | nil => intro cs h; rfl
  | cons fh rest ih =>
    intro cs h
    show (if _ then _ else _ : CloneState).metaCommits = _
    by_cases h1 : cs.metaCommitFiles.any
        (fun r => decide (r.1 = h) && decide (r.2 = fh)) = true
    · rw [if_pos h1]
      exact ih cs h
    · rw [if_neg h1]
      exact ih _ h

theorem any_append_left {α : Type} (l1 l2 : List α) (p : α → Bool)
    (h : l1.any p = true) : (l1 ++ l2).any p = true := by
  rw [List.any_append, h, Bool.true_or]

theorem addFileRows_file_mono : ∀ (l : List (List Nat)) (cs : CloneState) (h2 : List Nat)
    (h fh : List Nat), fileRowIn cs h fh = true →
    fileRowIn (addFileRows cs h2 l) h fh = true := by
  intro l
  induction l with
  | nil => intro cs h2 h fh hin; exact hin
  | cons f0 rest ih =>
    intro cs h2 h fh hin
    show fileRowIn (if _ then _ else _ : CloneState) h fh = true
    by_cases h1 : cs.metaCommitFiles.any
        (fun r => decide (r.1 = h2) && decide (r.2 = f0)) = true
    · rw [if_pos h1]
      exact ih cs h2 h fh hin
    · rw [if_neg h1]
      refine ih _ h2 h fh ?_
      exact any_append_left _ _ _ hin

theorem addFileRows_mem : ∀ (l : List (List Nat)) (cs : CloneState) (h : List Nat),
    ∀ fh ∈ l, fileRowIn (addFileRows cs h l) h fh = true := by
  intro l
  induction l with
  | nil => intro cs h fh hfh; simp at hfh
  | cons f0 rest ih =>
    intro cs h fh hfh
    show fileRowIn (if _ then _ else _ : CloneState) h fh = true
    by_cases h1 : cs.metaCommitFiles.any
        (fun r => decide (r.1 = h) && decide (r.2 = f0)) = true
    · rw [if_pos h1]
      rcases List.mem_cons.mp hfh with hfh | hfh
      · subst hfh
        exact addFileRows_file_mono rest cs h h fh h1
      · exact ih cs h fh hfh
    · rw [if_neg h1]
      rcases List.mem_cons.mp hfh with hfh | hfh
      · subst hfh
        refine addFileRows_file_mono rest _ h h fh ?_
        unfold fileRowIn
        refine List.any_of_mem (List.mem_append_right _ (List.mem_singleton_self _)) ?_
        simp
      · exact ih _ h fh hfh

theorem save_commit_mono (cs : CloneState) (c : CommitInfoM) (h : List Nat)
    (hin : commitIn cs h = true) : commitIn (save_remote_commit cs c) h = true := by
  unfold save_remote_commit
  by_cases h1 : cs.metaCommits.any (fun r => decide (r.1 = c.hash)) = true
  · rw [if_pos h1]
    unfold commitIn
    rw [addFileRows_metaCommits]
    exact hin
  · rw [if_neg h1]
    unfold commitIn
    rw [addFileRows_metaCommits]
    exact any_append_left _ _ _ hin

theorem save_file_mono (cs : CloneState) (c : CommitInfoM) (h fh : List Nat)
    (hin : fileRowIn cs h fh = true) :
    fileRowIn (save_remote_commit cs c) h fh = true := by
  unfold save_remote_commit
  by_cases h1 : cs.metaCommits.any (fun r => decide (r.1 = c.hash)) = true
  · rw [if_pos h1]
    exact addFileRows_file_mono _ _ _ _ _ hin
  · rw [if_neg h1]
    exact addFileRows_file_mono _ _ _ _ _ hin

theorem save_self_commit (cs : CloneState) (c : CommitInfoM) :
    commitIn (save_remote_commit cs c) c.hash = true := by
  unfold save_remote_commit
  by_cases h1 : cs.metaCommits.any (fun r => decide (r.1 = c.hash)) = true
  · rw [if_pos h1]
    unfold commitIn
    rw [addFileRows_metaCommits]
    exact h1
  · rw [if_neg h1]
    unfold commitIn
    rw [addFileRows_metaCommits]
    refine List.any_of_mem (List.mem_append_right _ (List.mem_singleton_self _)) ?_
    simp

theorem save_self_files (cs : CloneState) (c : CommitInfoM) :
    ∀ fh ∈ c.file_hashes, fileRowIn (save_remote_commit cs c) c.hash fh = true := by
  intro fh hfh
  unfold save_remote_commit
  by_cases h1 : cs.metaCommits.any (fun r => decide (r.1 = c.hash)) = true
  · rw [if_pos h1]
    exact addFileRows_mem _ _ _ fh hfh
  · rw [if_neg h1]
    exact addFileRows_mem _ _ _ fh hfh

theorem foldl_save_commit_mono : ∀ (l : List CommitInfoM) (cs : CloneState) (h : List Nat),
    commitIn cs h = true → commitIn (l.foldl save_remote_commit cs) h = true := by
  intro l
  induction l with
  | nil => intro cs h hin; exact hin
  | cons c0 rest ih =>
    intro cs h hin
    exact ih (save_remote_commit cs c0) h (save_commit_mono cs c0 h hin)

theorem foldl_save_file_mono : ∀ (l : List CommitInfoM) (cs : CloneState) (h fh : List Nat),
    fileRowIn cs h fh = true → fileRowIn (l.foldl save_remote_commit cs) h fh = true := by
  intro l
  induction l with
  | nil => intro cs h fh hin; exact hin
  | cons c0 rest ih =>
    intro cs h fh hin
    exact ih (save_remote_commit cs c0) h fh (save_file_mono cs c0 h fh hin)

theorem foldl_save_spec : ∀ (l : List CommitInfoM) (cs : CloneState),
    ∀ c ∈ l, commitIn (l.foldl save_remote_commit cs) c.hash = true ∧
      ∀ fh ∈ c.file_hashes,
        fileRowIn (l.foldl save_remote_commit cs) c.hash fh = true := by
  intro l
  induction l with
  | nil => intro cs c hc; simp at hc
  | cons c0 rest ih =>
    intro cs c hc
    rcases List.mem_cons.mp hc with hc | hc
    · subst hc
      constructor
      · exact foldl_save_commit_mono rest _ _ (save_self_commit cs c)
      · intro fh hfh
        exact foldl_save_file_mono rest _ _ fh (save_self_files cs c fh hfh)
    · exact ih (save_remote_commit cs c0) c hc

theorem downloadFiles_ok (H : Bytes → Digest) (hlen : ∀ b, 2 ≤ (H b).length)
    (peerStore : Store) : ∀ (hs : List Digest) (cs : CloneState),
    ∃ cs2, downloadFiles H peerStore cs hs = .ok cs2 := by
  intro hs
  induction hs with
  | nil => intro cs; exact ⟨cs, rfl⟩
  | cons h rest ih =>
    intro cs
    cases hr : (respondChunk peerStore h).data with
    | none =>
      have hred : downloadFiles H peerStore cs (h :: rest)
          = downloadFiles H peerStore cs rest := by
        simp only [downloadFiles, hr]
      rw [hred]
      exact ih cs
    | some data =>
      obtain ⟨d, st2, hst⟩ := store_always_ok H hlen cs.store data
      have hred : downloadFiles H peerStore cs (h :: rest)
          = downloadFiles H peerStore { cs with store := st2 } rest := by
        simp only [downloadFiles, hr, hst]
      rw [hred]
      exact ih { cs with store := st2 }

/-! ## Claim C2 -/

/-- Claim C2, counterexample: a peer advertises one commit referencing a
file digest its own object store cannot serve.  The clone completes
successfully — the commit (and its file association) land in the target's
metadata index — yet the file digest is absent from the target's object
store (`exists` is false), refuting the object-store completeness half of
the claim. -/
theorem claim_C2_counterexample :
    cloneFlow cH emptyStore demoPeerCommits
      = .ok ⟨emptyStore, [([99], [109], 0)], [([99], [104, 104])]⟩ ∧
    existsHash emptyStore [104, 104] = false ∧
    demoPeerCommits ≠ [] := by
  refine ⟨?_, ?_, ?_⟩ <;> decide

/-- Claim C2 (amended): a clone always completes successfully, and after
it every commit the peer returned to the commit request is present in the
target's metadata index together with one file-association row per file
digest; file blobs themselves are downloaded best-effort, and a digest
whose chunk request returns no data is simply skipped (it may be absent
from the target's object store while the clone still reports success, as
the counterexample shows). -/
theorem claim_C2_amended (H : Bytes → Digest) (hlen : ∀ b, 2 ≤ (H b).length)
    (peerStore : Store) (peerCommits : List CommitInfoM) :
    ∃ cs, cloneFlow H peerStore peerCommits = .ok cs ∧
      ∀ c ∈ peerCommits, commitIn cs c.hash = true ∧
        ∀ fh ∈ c.file_hashes, fileRowIn cs c.hash fh = true := by
  by_cases hemp : peerCommits = []
  · refine ⟨emptyCloneState, ?_, ?_⟩
    · unfold cloneFlow
      rw [if_pos hemp]
    · intro c hc
      rw [hemp] at hc
      simp at hc
  · obtain ⟨cs1, hdl⟩ := downloadFiles_ok H hlen peerStore
      (dedupKeepFirst (peerCommits.map CommitInfoM.file_hashes).flatten) emptyCloneState
    refine ⟨peerCommits.foldl save_remote_commit cs1, ?_, ?_⟩
    · unfold cloneFlow
      rw [if_neg hemp]
      simp only [hdl]
    · intro c hc
      exact foldl_save_spec peerCommits cs1 c hc

/-- Claim C2, witness: the amended clone contract at the concrete hash
`cH`, an empty peer store and the demo peer commit list. -/
theorem claim_C2_witness :
    (∀ b, 2 ≤ (cH b).length) ∧
    ∃ cs, cloneFlow cH emptyStore demoPeerCommits = .ok cs ∧
      ∀ c ∈ demoPeerCommits, commitIn cs c.hash = true ∧
        ∀ fh ∈ c.file_hashes, fileRowIn cs c.hash fh = true :=
  ⟨cH_length, claim_C2_amended cH cH_length emptyStore demoPeerCommits⟩
